import Mathlib

/-! Frequent: the `/analyze` word-frequency pipeline of `src/index.js`.

A shallow embedding of the request handler `app.post('/analyze', ...)`:
tokenisation (`content.toLowerCase().match(/\b\w+\b/g)`), the two optional
token filters, the count table `wordCounts` (a plain JavaScript object), the
ranking chain `Object.entries(..).sort(..).filter(..).slice(..).map(..)` and the
process-wide `urlCache`.

Conventions of the embedding.

* JavaScript strings are modelled as `List Char` (`Str`).  The two regular
  expressions of the handler are evaluated on UTF-16 code units in JavaScript;
  for `/\b\w+\b/g` this makes no difference (a word character is an ASCII
  character, one code unit), for the URL pattern the code units are made
  explicit (`utf16`).
* Builtins of the language and of third-party packages that are not part of
  the repository (`String.prototype.toLowerCase`, the lexicon of the `stopword`
  package) are fields of `Env`.
* Integers of the request body (`n`, `minFrequency`) are `Option Int`, `none`
  standing for an absent field.
* `Array.prototype.sort` is the stable sort the language prescribes whenever
  the comparator is consistent for the elements; otherwise the order is that of
  the engine of Node, V8, for an array of fewer than 64 elements (`v8Sort`).
-/

namespace Frequent

/-- A JavaScript string. -/
abbrev Str := List Char

/-! ## Tokenisation: `content.toLowerCase().match(/\b\w+\b/g)` (line 64) -/

/-- The class `\w` of a regular expression without the `u` and `i` flags:
`[A-Za-z0-9_]`. -/
def isWordChar (c : Char) : Bool :=
  (0x30 ≤ c.toNat && c.toNat ≤ 0x39) || (0x41 ≤ c.toNat && c.toNat ≤ 0x5A) ||
    (0x61 ≤ c.toNat && c.toNat ≤ 0x7A) || c.toNat == 0x5F

/-- Whether the character at a position (if any) is a word character; outside
the text (`none`) there is no word character. -/
def isWordAt : Option Char → Bool
  | none => false
  | some c => isWordChar c

/-- The assertion `\b` between the character before a position and the
character at it: exactly one of the two is a word character. -/
def wordBoundary (prev next : Option Char) : Bool :=
  isWordAt prev != isWordAt next

/-- Backtracking of the greedy `\w+` followed by `\b`: having consumed at most
`k` word characters of `s`, try the lengths `k, k-1, ..., 1` in turn and return
the first prefix that ends at a word boundary. -/
def backtrackWord (s : Str) : Nat → Option Str
  | 0 => none
  | k + 1 =>
    if wordBoundary (s.get? k) (s.get? (k + 1)) then some (s.take (k + 1))
    else backtrackWord s k

/-- One attempt to match `\b\w+\b` at the start of `s`, where `prev` is the
character just before `s` in the whole text. -/
def matchWordAt (prev : Option Char) (s : Str) : Option Str :=
  if wordBoundary prev s.head? then
    backtrackWord s (s.takeWhile isWordChar).length
  else none

/-- The scan of a global (`g`) match: try the pattern at each position from
left to right; after a match continue at its end (`skip` counts the characters
of the last match still to be passed over), otherwise advance by one. -/
def scanWords (prev : Option Char) : Str → Nat → List Str
  | [], _ => []
  | c :: cs, skip + 1 => scanWords (some c) cs skip
  | c :: cs, 0 =>
    match matchWordAt prev (c :: cs) with
    | some m => m :: scanWords (some c) cs (m.length - 1)
    | none => scanWords (some c) cs 0

/-- The value of `s.match(/\b\w+\b/g)`: the array of all matches, or `null`
(`none`) when there is no match. -/
def matchWords (s : Str) : Option (List Str) :=
  match scanWords none s 0 with
  | [] => none
  | m :: ms => some (m :: ms)

/-- What the handler takes from outside the repository. -/
structure Env where
  /-- The builtin `String.prototype.toLowerCase`. -/
  toLowerCase : Str → Str
  /-- The lexicon of the `stopword` package (its default word list). -/
  stopwords : List Str

/-- The variable `words` after line 64: `content.toLowerCase().match(/\b\w+\b/g)`,
an array or `null`. -/
def wordsOf (env : Env) (content : Str) : Option (List Str) :=
  matchWords (env.toLowerCase content)

/-- The token sequence the rest of the handler works on: the guard `if (words)`
of line 66 skips filtering and counting when `words` is `null`, which leaves
the count table as it is for an empty sequence. -/
def tokenize (env : Env) (content : Str) : List Str :=
  (wordsOf env content).getD []

/-! ## The token filters (lines 66-75) -/

/-- The code units matched by `\s` and stripped by `trim` and by `Number`:
WhiteSpace and LineTerminator of ECMAScript. -/
def isSpaceUnit (u : Nat) : Bool :=
  u == 0x09 || u == 0x0A || u == 0x0B || u == 0x0C || u == 0x0D || u == 0x20 ||
  u == 0xA0 || u == 0x1680 || (0x2000 ≤ u && u ≤ 0x200A) || u == 0x2028 ||
  u == 0x2029 || u == 0x202F || u == 0x205F || u == 0x3000 || u == 0xFEFF

/-- A white space or line terminator character. -/
def isJSSpace (c : Char) : Bool :=
  isSpaceUnit c.toNat

/-- The builtin `String.prototype.trim`. -/
def jsTrim (s : Str) : Str :=
  ((s.dropWhile isJSSpace).reverse.dropWhile isJSSpace).reverse

/-- A non-empty string all of whose characters satisfy `p`. -/
def nonEmptyAll (p : Char → Bool) (s : Str) : Bool :=
  !s.isEmpty && s.all p

/-- A decimal digit `0`-`9`. -/
def isDecDigit (c : Char) : Bool :=
  0x30 ≤ c.toNat && c.toNat ≤ 0x39

/-- A hexadecimal digit, in either case. -/
def isHexDigit (c : Char) : Bool :=
  isDecDigit c || (0x61 ≤ c.toNat && c.toNat ≤ 0x66) || (0x41 ≤ c.toNat && c.toNat ≤ 0x46)

/-- An octal digit. -/
def isOctDigit (c : Char) : Bool :=
  0x30 ≤ c.toNat && c.toNat ≤ 0x37

/-- A binary digit. -/
def isBinDigit (c : Char) : Bool :=
  c == '0' || c == '1'

/-- An optional ExponentPart (`e` or `E`, an optional sign, decimal digits)
followed by the end of the literal. -/
def isExponentOpt : Str → Bool
  | [] => true
  | e :: rest =>
    (e == 'e' || e == 'E') &&
      (match rest with
       | [] => false
       | c :: ds => if c == '+' || c == '-' then nonEmptyAll isDecDigit ds
                    else nonEmptyAll isDecDigit (c :: ds))

/-- The production StrUnsignedDecimalLiteral: `Infinity`, `digits . digits? exp?`,
`. digits exp?` or `digits exp?`. -/
def isStrUnsignedDecimal (s : Str) : Bool :=
  s == "Infinity".toList ||
  (match s.dropWhile isDecDigit with
   | [] => !(s.takeWhile isDecDigit).isEmpty
   | c :: r =>
     if c == '.' then
       (!(s.takeWhile isDecDigit).isEmpty || !(r.takeWhile isDecDigit).isEmpty) &&
         isExponentOpt (r.dropWhile isDecDigit)
     else !(s.takeWhile isDecDigit).isEmpty && isExponentOpt (c :: r))

/-- The production StrDecimalLiteral: an optional sign and an unsigned literal. -/
def isStrDecimal : Str → Bool
  | [] => false
  | c :: rest =>
    if c == '+' || c == '-' then isStrUnsignedDecimal rest
    else isStrUnsignedDecimal (c :: rest)

/-- The production NonDecimalIntegerLiteral: `0b`, `0o` or `0x` (either case)
and digits of that base. -/
def isNonDecimalInteger : Str → Bool
  | z :: x :: ds =>
    z == '0' &&
      (((x == 'b' || x == 'B') && nonEmptyAll isBinDigit ds) ||
       ((x == 'o' || x == 'O') && nonEmptyAll isOctDigit ds) ||
       ((x == 'x' || x == 'X') && nonEmptyAll isHexDigit ds))
  | _ => false

/-- Whether `Number(s)` is a number: `s` is a StringNumericLiteral, that is,
after trimming it is empty, a decimal literal or a non-decimal integer
literal.  (A literal never converts to `NaN`.) -/
def isNumericString (s : Str) : Bool :=
  (jsTrim s).isEmpty || isStrDecimal (jsTrim s) || isNonDecimalInteger (jsTrim s)

/-- The builtin `isNaN` applied to a string: `Number(s)` is `NaN`. -/
def jsIsNaN (s : Str) : Bool :=
  !isNumericString s

/-- Modelled from the spec: `removeStopwords` of the third-party `stopword`
package, whose code is not part of the sources.  It drops every token present
in the stopword lexicon and keeps the others in order. -/
def removeStopwords (env : Env) (ws : List Str) : List Str :=
  ws.filter (fun w => !env.stopwords.contains w)

/-- Lines 67-75: `words.filter(word => isNaN(word))` when `removeNumbers` is
set, then `stopword.removeStopwords(words)` when `removeStopwords` is set. -/
def filterTokens (env : Env) (removeNumbers removeStopwordsFlag : Bool) (ws : List Str) :
    List Str :=
  let ws1 := if removeNumbers then ws.filter jsIsNaN else ws
  if removeStopwordsFlag then removeStopwords env ws1 else ws1

/-! ## The count table `wordCounts` (lines 63, 78-80) -/

/-- A value stored in `wordCounts`: a number, or a string.  A string arises
only from `+ 1` applied to a member inherited from `Object.prototype` (see
`nextCount`); such a string starts with `function` or `[object`, so that
converting it to a number gives `NaN`. -/
inductive CountVal where
  | num (n : Nat)
  | text (s : String)
  deriving DecidableEq, Repr

/-- The own properties of a plain object, in order of creation. -/
abbrev Props (β : Type) := List (Str × β)

/-- The table `wordCounts`. -/
abbrev Table := Props CountVal

/-- The string a builtin function converts to (V8). -/
def nativeFn (name : String) : String :=
  "function " ++ name ++ "() \x7b [native code] \x7d"

/-- The members every plain object `{}` inherits from `Object.prototype`, each
with the string it converts to under `+`: the builtin functions, and the
accessor `__proto__`, whose getter returns `Object.prototype` itself. -/
def objectPrototype : List (Str × String) :=
  [ ("constructor".toList, nativeFn "Object"),
    ("__defineGetter__".toList, nativeFn "__defineGetter__"),
    ("__defineSetter__".toList, nativeFn "__defineSetter__"),
    ("hasOwnProperty".toList, nativeFn "hasOwnProperty"),
    ("__lookupGetter__".toList, nativeFn "__lookupGetter__"),
    ("__lookupSetter__".toList, nativeFn "__lookupSetter__"),
    ("isPrototypeOf".toList, nativeFn "isPrototypeOf"),
    ("propertyIsEnumerable".toList, nativeFn "propertyIsEnumerable"),
    ("toString".toList, nativeFn "toString"),
    ("valueOf".toList, nativeFn "valueOf"),
    ("__proto__".toList, "[object Object]"),
    ("toLocaleString".toList, nativeFn "toLocaleString") ]

/-- The value of `(wordCounts[word] || 0) + 1`.  An own count `n` gives `n + 1`;
a missing property gives `1`, unless the word names an inherited member: that
member is an object, hence truthy, and `+ 1` concatenates `"1"` to its string
conversion. -/
def nextCount (t : Table) (w : Str) : CountVal :=
  match t.lookup w with
  | some (.num n) => .num (n + 1)
  | some (.text s) => if s = "" then .num 1 else .text (s ++ "1")
  | none =>
    match objectPrototype.lookup w with
    | some s => .text (s ++ "1")
    | none => .num 1

/-- Writing an own property: an existing key keeps its place, a new key is
created after the others. -/
def setOwn {β : Type} (t : Props β) (k : Str) (v : β) : Props β :=
  if t.any (fun e => e.1 == k) then t.map (fun e => if e.1 = k then (k, v) else e)
  else t ++ [(k, v)]

/-- The assignment `wordCounts[word] = v`.  For the key `__proto__` the
assignment reaches the inherited setter, which ignores a value that is neither
an object nor `null`: no own property is created. -/
def assignCount (t : Table) (w : Str) (v : CountVal) : Table :=
  if w = "__proto__".toList then t else setOwn t w v

/-- Lines 78-80: `words.forEach(word => wordCounts[word] = (wordCounts[word] || 0) + 1)`
starting from the empty object. -/
def countWords (ws : List Str) : Table :=
  ws.foldl (fun t w => assignCount t w (nextCount t w)) []

/-- The variable `wordCounts` at line 83: empty when `words` is `null`,
otherwise the counts of the filtered words. -/
def wordCountsOf (env : Env) (removeNumbers removeStopwordsFlag : Bool) (content : Str) :
    Table :=
  match wordsOf env content with
  | none => []
  | some ws => countWords (filterTokens env removeNumbers removeStopwordsFlag ws)

/-! ## Ranking (lines 84-88) -/

/-- The numeric value of a property key that is an array index: a canonical
decimal numeral (no leading zero) of an integer up to `2^32 - 2`. -/
def arrayIndex (w : Str) : Option Nat :=
  if nonEmptyAll isDecDigit w && (w.length == 1 || w.head? != some '0') then
    (if w.foldl (fun a c => 10 * a + (c.toNat - 48)) 0 ≤ 4294967294 then
      some (w.foldl (fun a c => 10 * a + (c.toNat - 48)) 0)
     else none)
  else none

/-- The builtin `Object.entries`: the own properties, array-index keys first in
ascending numeric order, then the other keys in order of creation. -/
def objectEntries {β : Type} (t : Props β) : List (Str × β) :=
  (t.filter (fun e => (arrayIndex e.1).isSome)).insertionSort
      (fun a b => (arrayIndex a.1).getD 0 ≤ (arrayIndex b.1).getD 0) ++
    t.filter (fun e => (arrayIndex e.1).isNone)

/-- The conversion of a count to a number; `none` is `NaN`. -/
def toNumber : CountVal → Option Int
  | .num n => some n
  | .text _ => none

/-- The comparator `([, a], [, b]) => b - a`; `none` is `NaN`. -/
def compareFn (x y : Str × CountVal) : Option Int :=
  match toNumber y.2, toNumber x.2 with
  | some b, some a => some (b - a)
  | _, _ => none

/-- The abstract operation SortCompare of `Array.prototype.sort`: the
comparator's result, `NaN` replaced by `0`. -/
def sortCompare (x y : Str × CountVal) : Int :=
  (compareFn x y).getD 0

/-- Whether the comparator is a consistent comparator for the elements of `l`,
as the language defines it.  For `b - a` with `NaN` taken as `0` the only
condition that can fail is the transitivity of "compares equal". -/
def comparatorConsistent (l : List (Str × CountVal)) : Bool :=
  l.all (fun x => l.all (fun y => l.all (fun z =>
    !(sortCompare x y == 0 && sortCompare y z == 0) || sortCompare x z == 0)))

/-- The binary search of V8's `BinaryInsertionSort`: the index in `sorted`
where `pivot` is put, searched between `left` and `right`; the pivot goes left
of the middle element exactly when it compares below it. -/
def binarySearch (pivot : Str × CountVal) (sorted : List (Str × CountVal)) :
    Nat → Nat → Nat → Nat
  | 0, left, _ => left
  | fuel + 1, left, right =>
    if left < right then
      match sorted.get? (left + (right - left) / 2) with
      | some m =>
        if sortCompare pivot m < 0 then
          binarySearch pivot sorted fuel left (left + (right - left) / 2)
        else binarySearch pivot sorted fuel (left + (right - left) / 2 + 1) right
      | none => left
    else left

/-- One step of V8's `BinaryInsertionSort`: `pivot` is put into the sorted
part at the index found by the binary search. -/
def binaryInsert (sorted : List (Str × CountVal)) (pivot : Str × CountVal) :
    List (Str × CountVal) :=
  sorted.take (binarySearch pivot sorted sorted.length 0 sorted.length) ++
    pivot :: sorted.drop (binarySearch pivot sorted sorted.length 0 sorted.length)

/-- V8's `BinaryInsertionSort`: the remaining elements are put into the sorted
part one by one, from left to right. -/
def binaryInsertionSort (sorted : List (Str × CountVal)) :
    List (Str × CountVal) → List (Str × CountVal)
  | [] => sorted
  | p :: rest => binaryInsertionSort (binaryInsert sorted p) rest

/-- The number of further elements of the run counted by V8's
`CountAndMakeRun`: a descending run goes on while each element compares below
the one before it, an ascending run while it does not. -/
def runTail (descending : Bool) (prev : Str × CountVal) : List (Str × CountVal) → Nat
  | [] => 0
  | x :: rest =>
    if (if descending then decide (0 ≤ sortCompare x prev)
        else decide (sortCompare x prev < 0)) then 0
    else 1 + runTail descending x rest

/-- What V8 (the engine of Node) does for an array of fewer than 64 elements:
the run at the start of the array is taken (and reversed when descending) and
the other elements are put into it by binary insertion.  Longer arrays are
merged run by run in V8, which is not modelled: they are treated in the same
way here. -/
def v8Sort : List (Str × CountVal) → List (Str × CountVal)
  | [] => []
  | [a] => [a]
  | a :: b :: rest =>
    if sortCompare b a < 0 then
      binaryInsertionSort ((a :: b :: rest).take (2 + runTail true b rest)).reverse
        ((a :: b :: rest).drop (2 + runTail true b rest))
    else
      binaryInsertionSort ((a :: b :: rest).take (2 + runTail false b rest))
        ((a :: b :: rest).drop (2 + runTail false b rest))

/-- The builtin `Array.prototype.sort` with the comparator of line 85.  When
the comparator is consistent for the elements, in particular whenever all
counts are numbers, the language fixes the result: the elements in the order
of the comparator, elements that compare equal in their original order (a
stable sort).  When it is not consistent (a string count next to distinct
numeric counts) the order is left to the implementation, here V8. -/
def jsSort (l : List (Str × CountVal)) : List (Str × CountVal) :=
  if comparatorConsistent l then l.insertionSort (fun x y => sortCompare x y ≤ 0)
  else v8Sort l

/-- The predicate of line 86: `!minFrequency || count >= minFrequency`; a
comparison with `NaN` is false. -/
def passesMin (minFrequency : Option Int) (e : Str × CountVal) : Bool :=
  match minFrequency with
  | none => true
  | some m =>
    m == 0 ||
      (match toNumber e.2 with
       | some c => decide (m ≤ c)
       | none => false)

/-- The end index `n || 10` of line 87. -/
def sliceEnd (n : Option Int) : Int :=
  match n with
  | none => 10
  | some k => if k = 0 then 10 else k

/-- The builtin `Array.prototype.slice(0, e)`: a negative end counts from the
end of the array. -/
def slice0 {α : Type} (l : List α) (e : Int) : List α :=
  if e < 0 then l.take (l.length - e.natAbs) else l.take e.toNat

/-- An element `{ word, count }` of the response. -/
structure RankedEntry where
  word : Str
  count : CountVal
  deriving DecidableEq, Repr

/-- Lines 84-88: `Object.entries(wordCounts).sort(..).filter(..).slice(0, n || 10).map(..)`. -/
def sortedWordCounts (t : Table) (minFrequency n : Option Int) : List RankedEntry :=
  (slice0 ((jsSort (objectEntries t)).filter (passesMin minFrequency)) (sliceEnd n)).map
    (fun e => { word := e.1, count := e.2 })

/-- The aggregation of a token sequence: counting, then ranking. -/
def aggregate (ws : List Str) (minFrequency n : Option Int) : List RankedEntry :=
  sortedWordCounts (countWords ws) minFrequency n

/-! ## URL validation (line 25) -/

/-- The UTF-16 code units of a string: a character outside the basic plane is
a surrogate pair. -/
def utf16 (s : Str) : List Nat :=
  s.flatMap (fun c =>
    if c.toNat < 0x10000 then [c.toNat]
    else [0xD800 + (c.toNat - 0x10000) / 0x400, 0xDC00 + (c.toNat - 0x10000) % 0x400])

/-- A LineTerminator code unit: what `.` does not match and what `^` and `$`
look at under the `m` flag. -/
def isLineTerminator (u : Nat) : Bool :=
  u == 0x0A || u == 0x0D || u == 0x2028 || u == 0x2029

/-- The assertion `$` under the `m` flag: at the end of the input or before a
line terminator. -/
def atLineEnd : List Nat → Bool
  | [] => true
  | u :: _ => isLineTerminator u

/-- The assertion `^` under the `m` flag: at the start of the input or after a
line terminator. -/
def atLineStart : Option Nat → Bool
  | none => true
  | some u => isLineTerminator u

/-- Backtracking of the greedy `[^\s]*` followed by `$`: try `k, k-1, ..., 0`
consumed units in turn. -/
def backtrackLineEnd (s : List Nat) : Nat → Bool
  | 0 => atLineEnd s
  | k + 1 => atLineEnd (s.drop (k + 1)) || backtrackLineEnd s k

/-- The part `:\/\/[^\s$.?#].[^\s]*$` of the pattern at the start of `s`. -/
def matchAfterScheme : List Nat → Bool
  | a :: b :: c :: c1 :: c2 :: rest =>
    a == 0x3A && b == 0x2F && c == 0x2F &&
      (!isSpaceUnit c1 && c1 != 0x24 && c1 != 0x2E && c1 != 0x3F && c1 != 0x23) &&
      !isLineTerminator c2 &&
      backtrackLineEnd rest (rest.takeWhile (fun u => !isSpaceUnit u)).length
  | _ => false

/-- The pattern `https?:\/\/[^\s$.?#].[^\s]*$` at the start of `s`: the greedy
`s?` first with the `s`, then without it. -/
def matchUrlAt : List Nat → Bool
  | h :: t1 :: t2 :: p :: rest =>
    h == 0x68 && t1 == 0x74 && t2 == 0x74 && p == 0x70 &&
      ((match rest with
        | x :: rest1 => x == 0x73 && matchAfterScheme rest1
        | [] => false) || matchAfterScheme rest)
  | _ => false

/-- The search of `test`: the pattern with its leading `^` tried at each
position from left to right; `prev` is the unit before the position. -/
def searchUrl (prev : Option Nat) : List Nat → Bool
  | [] => false
  | u :: us => (atLineStart prev && matchUrlAt (u :: us)) || searchUrl (some u) us

/-- The value of `/^https?:\/\/[^\s$.?#].[^\s]*$/gm.test(url)`; the literal is
evaluated anew at each request, so the search starts at index 0. -/
def urlPatternTest (url : Str) : Bool :=
  searchUrl none (utf16 url)

/-- The negation of the guard of line 25: `url` is truthy (present and not the
empty string) and passes the pattern. -/
def validUrl (url : Option Str) : Bool :=
  match url with
  | none => false
  | some u => !u.isEmpty && urlPatternTest u

/-! ## The handler and the cache (lines 19-32, 34-100) -/

/-- The fields the handler reads from the request body; the two flags are
taken by their truthiness. -/
structure Request where
  url : Option Str
  removeStopwords : Bool
  removeNumbers : Bool
  n : Option Int
  minFrequency : Option Int
  deriving DecidableEq, Repr

/-- The JSON body of a response. -/
inductive Body where
  | wordFrequencies (r : List RankedEntry)
  | error (msg : String)
  deriving DecidableEq, Repr

/-- A response: status code and body. -/
structure Response where
  status : Nat
  body : Body
  deriving DecidableEq, Repr

/-- The object `urlCache`: its own properties, keyed by URL. -/
abbrev Cache := Props (List RankedEntry)

/-- What the rendering steps (lines 36-56) end with: the extracted text, or an
exception, which may carry a `response` with a status and a status text. -/
inductive RenderOutcome where
  | content (text : Str)
  | failed (response : Option (Nat × String))
  deriving DecidableEq, Repr

/-- The outcome of the synchronous first part of the handler (lines 22-32). -/
inductive Begin where
  | respond (r : Response)
  | render
  deriving DecidableEq, Repr

/-- The url of a request as a property key. -/
def urlKey (req : Request) : Str :=
  req.url.getD []

/-- Lines 22-32: validation, then the cache check `if (urlCache[url])`; a
cached array is an object, hence truthy, also when it is empty.  (No validated
url names a member inherited by `urlCache`, see `objectPrototype`.) -/
def beginRequest (cache : Cache) (req : Request) : Begin :=
  if !validUrl req.url then
    .respond { status := 400, body := .error "Invalid URL format. Please enter a valid URL." }
  else
    match cache.lookup (urlKey req) with
    | some r => .respond { status := 200, body := .wordFrequencies r }
    | none => .render

/-- Lines 58-100, run in one piece once the rendering steps have settled: the
empty-content check, the pipeline, the cache store and the response, or the
`catch` block after an exception. -/
def finishRequest (env : Env) (cache : Cache) (req : Request) :
    RenderOutcome → Cache × Response
  | .failed (some (status, statusText)) =>
    (cache, { status := status, body := .error ("Failed to fetch page: " ++ statusText) })
  | .failed none =>
    (cache, { status := 500,
              body := .error "An unexpected error occurred. Please try again later." })
  | .content text =>
    if (jsTrim text).isEmpty then
      (cache, { status := 404, body := .error "The provided URL has no readable content." })
    else
      (setOwn cache (urlKey req)
          (sortedWordCounts (wordCountsOf env req.removeNumbers req.removeStopwords text)
            req.minFrequency req.n),
        { status := 200,
          body := .wordFrequencies
            (sortedWordCounts (wordCountsOf env req.removeNumbers req.removeStopwords text)
              req.minFrequency req.n) })

/-- The server between two turns of the event loop: the cache and the requests
that have passed the cache check and are waiting for their render. -/
structure Server where
  cache : Cache
  inFlight : List Request
  deriving DecidableEq, Repr

/-- A turn of the event loop: a request arrives, or the render of the in-flight
request number `i` settles. -/
inductive Event where
  | request (req : Request)
  | rendered (i : Nat) (out : RenderOutcome)
  deriving DecidableEq, Repr

/-- One turn: the new state and the response sent in this turn, if any. -/
def step (env : Env) (s : Server) : Event → Server × Option Response
  | .request req =>
    match beginRequest s.cache req with
    | .respond r => (s, some r)
    | .render => ({ s with inFlight := s.inFlight ++ [req] }, none)
  | .rendered i out =>
    match s.inFlight.get? i with
    | none => (s, none)
    | some req =>
      ({ cache := (finishRequest env s.cache req out).1, inFlight := s.inFlight.eraseIdx i },
        some (finishRequest env s.cache req out).2)

/-- The state after a sequence of turns. -/
def runEvents (env : Env) (s : Server) : List Event → Server
  | [] => s
  | e :: es => runEvents env (step env s e).1 es

/-- The handler when requests do not overlap: the whole request is served
before the next one arrives; `out` is what its render would end with. -/
def handle (env : Env) (cache : Cache) (req : Request) (out : RenderOutcome) :
    Cache × Response :=
  match beginRequest cache req with
  | .respond r => (cache, r)
  | .render => finishRequest env cache req out

/-! ## Vocabulary of the statements -/

/-- The word names a member that `wordCounts` inherits from `Object.prototype`. -/
def inheritedName (w : Str) : Bool :=
  (objectPrototype.lookup w).isSome

/-- The comparison `a >= b` of two counts as the language evaluates it: both
sides are converted to numbers and a comparison with `NaN` is false. -/
def countGe (a b : CountVal) : Bool :=
  match toNumber a, toNumber b with
  | some x, some y => decide (y ≤ x)
  | _, _ => false

/-- Each entry's count is greater than or equal to the count of the entry
after it. -/
def nonIncreasing : List RankedEntry → Prop
  | x :: y :: rest => countGe x.count y.count = true ∧ nonIncreasing (y :: rest)
  | _ => True

/-- A request for `url` with the given options. -/
def mkRequest (url : String) (removeStopwordsFlag removeNumbers : Bool)
    (n minFrequency : Option Int) : Request :=
  { url := some url.toList, removeStopwords := removeStopwordsFlag,
    removeNumbers := removeNumbers, n := n, minFrequency := minFrequency }

/-- A request with every option absent. -/
def plainRequest (url : String) : Request :=
  mkRequest url false false none none

/-- The turn `e` at state `s` answers the request `req` with status 200 and
the word frequencies `r`: `req` arrives and is served in the same turn, or it
is the in-flight request whose render settles. -/
def answers (env : Env) (s : Server) (e : Event) (req : Request) (r : List RankedEntry) :
    Prop :=
  (step env s e).2 = some { status := 200, body := .wordFrequencies r } ∧
    (match e with
     | .request q => q = req
     | .rendered i _ => s.inFlight.get? i = some req)

/-- The cache holds `r` for the url `u` and no request for `u` is in flight. -/
def settled (s : Server) (u : Str) (r : List RankedEntry) : Prop :=
  s.cache.lookup u = some r ∧ ∀ q ∈ s.inFlight, urlKey q ≠ u

/-- The maximal runs of word characters of a text, as the specification words
it: every character that is not a word character is a separator, the text is
cut at the separators and the empty pieces are discarded. -/
def wordRuns (s : Str) : List Str :=
  (s.splitOnP (fun c => !isWordChar c)).filter (fun r => !r.isEmpty)

/-- Lowercasing of the ASCII letters, every other character unchanged; on ASCII
text this is `String.prototype.toLowerCase`. -/
def asciiLower (s : Str) : Str :=
  s.map Char.toLower

/-- An environment for concrete runs: ASCII lowercasing and a lexicon
containing `the`. -/
def sampleEnv : Env :=
  { toLowerCase := asciiLower, stopwords := ["the".toList, "a".toList, "of".toList] }

/-- The numerals among the strings of word characters, spelled out: decimal
digits; decimal digits, `e` or `E`, decimal digits; `0b`, `0o` or `0x` (either
case) followed by digits of that base; and `Infinity`. -/
def wordNumeral (w : Str) : Prop :=
  nonEmptyAll isDecDigit w = true ∨
  (∃ a e b, w = a ++ e :: b ∧ (e = 'e' ∨ e = 'E') ∧
    nonEmptyAll isDecDigit a = true ∧ nonEmptyAll isDecDigit b = true) ∨
  (∃ x ds, w = '0' :: x :: ds ∧
    (((x = 'b' ∨ x = 'B') ∧ nonEmptyAll isBinDigit ds = true) ∨
     ((x = 'o' ∨ x = 'O') ∧ nonEmptyAll isOctDigit ds = true) ∨
     ((x = 'x' ∨ x = 'X') ∧ nonEmptyAll isHexDigit ds = true))) ∨
  w = "Infinity".toList

/-- The count of an entry is a number. -/
def numeric (x : Str × CountVal) : Prop :=
  ∃ c : Nat, x.2 = .num c

/-- A word that occurs `c` times meets the threshold of line 86:
`!minFrequency || c >= minFrequency`. -/
def meetsMin (minFrequency : Option Int) (c : Nat) : Bool :=
  match minFrequency with
  | none => true
  | some m => m == 0 || decide (m ≤ (c : Int))

/-- A request for `http://example.com` that asks for the single most frequent
word. -/
def topOne : Request :=
  mkRequest "http://example.com" false false (some 1) none

/-- The server after two requests for `http://example.com` have arrived at an
empty cache, the first asking for one word, the second with every option
absent: both have missed the cache and wait for their render. -/
def twoInFlight : Server :=
  runEvents sampleEnv { cache := [], inFlight := [] }
    [.request topOne, .request (plainRequest "http://example.com")]

/-- Every character of the text is white space or a line terminator; the empty
text is blank. -/
def blank (text : Str) : Prop :=
  ∀ c ∈ text, isJSSpace c = true

/-- What the pipeline of lines 63-88 computes for a page text under the
options of a request. -/
def analyze (env : Env) (req : Request) (text : Str) : List RankedEntry :=
  sortedWordCounts (wordCountsOf env req.removeNumbers req.removeStopwords text)
    req.minFrequency req.n

/-- The position at which a word first occurs in a token sequence (the length
of the sequence when it does not occur). -/
def firstIndex : List Str → Str → Nat
  | [], _ => 0
  | x :: xs, w => if x = w then 0 else firstIndex xs w + 1

/-- A token sequence in which `e` and `p` both occur three times, `e` first,
next to the word `constructor`. -/
def tieTokens : List Str :=
  ["a", "b", "c", "constructor", "e", "e", "e", "g", "g", "g", "g", "g", "g", "g", "g", "g",
    "p", "p", "p"].map String.toList

/-! ## Tokenisation is the cutting of the text at its separators -/

theorem wordRuns_nil : wordRuns [] = [] := by
  simp [wordRuns, List.splitOnP_nil]

theorem wordRuns_sep (c : Char) (cs : Str) (hc : isWordChar c = false) :
    wordRuns (c :: cs) = wordRuns cs := by
  simp [wordRuns, List.splitOnP_cons, hc]

theorem wordRuns_run_end (run : Str) (hne : run ≠ []) (hall : ∀ c ∈ run, isWordChar c = true) :
    wordRuns run = [run] := by
  unfold wordRuns
  rw [List.splitOnP_eq_single _ _ (by simpa using hall)]
  cases run with
  | nil => exact absurd rfl hne
  | cons a l => simp

theorem wordRuns_run_sep (run : Str) (hne : run ≠ []) (hall : ∀ c ∈ run, isWordChar c = true)
    (c : Char) (cs : Str) (hc : isWordChar c = false) :
    wordRuns (run ++ c :: cs) = run :: wordRuns (c :: cs) := by
  rw [wordRuns_sep c cs hc]
  unfold wordRuns
  rw [List.splitOnP_first _ _ (by simpa using hall) c (by simp [hc])]
  cases run with
  | nil => exact absurd rfl hne
  | cons a l => simp

theorem isWordAt_head_dropWhile (l : Str) :
    isWordAt (l.dropWhile isWordChar).head? = false := by
  induction l with
  | nil => rfl
  | cons a l ih =>
    by_cases ha : isWordChar a = true
    · simpa [List.dropWhile_cons, ha] using ih
    · simp [List.dropWhile_cons, ha, isWordAt]

theorem takeWhile_run_append (run rest : Str) (hall : ∀ c ∈ run, isWordChar c = true)
    (hrest : isWordAt rest.head? = false) :
    (run ++ rest).takeWhile isWordChar = run := by
  induction run with
  | nil =>
    cases rest with
    | nil => rfl
    | cons d r => simp [isWordAt] at hrest; simp [List.takeWhile_cons, hrest]
  | cons a l ih =>
    have ha : isWordChar a = true := hall a (List.mem_cons_self _ _)
    simp [List.takeWhile_cons, ha]
    exact ih (fun c hc => hall c (List.mem_cons_of_mem _ hc))

theorem backtrackWord_run (run rest : Str) (hne : run ≠ [])
    (hall : ∀ c ∈ run, isWordChar c = true) (hrest : isWordAt rest.head? = false) :
    backtrackWord (run ++ rest) run.length = some run := by
  obtain ⟨k, hk⟩ : ∃ k, run.length = k + 1 := by
    cases run with
    | nil => exact absurd rfl hne
    | cons a l => exact ⟨l.length, rfl⟩
  rw [hk, backtrackWord]
  have h1 : (run ++ rest).get? k = run.get? k := by
    simp [List.getElem?_append_left (show k < run.length by omega)]
  have h2 : (run ++ rest).get? (k + 1) = rest.head? := by
    simp [List.getElem?_append_right (show run.length ≤ k + 1 by omega), hk, List.head?_eq_getElem?]
  have h3 : isWordAt (run.get? k) = true := by
    have hlt : k < run.length := by omega
    rw [List.get?_eq_get hlt]
    exact hall _ (List.get_mem _ _ _)
  have h4 : List.take (k + 1) (run ++ rest) = run := by
    rw [← hk]; simp
  rw [h1, h2, h4]
  simp only [wordBoundary, h3, hrest]
  rfl

theorem matchWordAt_run (prev : Option Char) (run rest : Str) (hne : run ≠ [])
    (hall : ∀ c ∈ run, isWordChar c = true) (hrest : isWordAt rest.head? = false)
    (hprev : isWordAt prev = false) :
    matchWordAt prev (run ++ rest) = some run := by
  have hhead : isWordAt (run ++ rest).head? = true := by
    cases run with
    | nil => exact absurd rfl hne
    | cons a l => exact hall a (List.mem_cons_self _ _)
  have hb : wordBoundary prev (run ++ rest).head? = true := by
    simp only [wordBoundary, hprev, hhead]
    rfl
  rw [matchWordAt, hb, takeWhile_run_append run rest hall hrest,
    backtrackWord_run run rest hne hall hrest]
  rfl

theorem matchWordAt_sep (prev : Option Char) (c : Char) (cs : Str)
    (hc : isWordChar c = false) : matchWordAt prev (c :: cs) = none := by
  simp [matchWordAt, List.takeWhile_cons, hc, backtrackWord]

theorem scanWords_skip (ys : Str) :
    ∀ (xs : Str) (prev : Option Char),
      ∃ p, scanWords prev (xs ++ ys) xs.length = scanWords p ys 0 := by
  intro xs
  induction xs with
  | nil => intro prev; exact ⟨prev, rfl⟩
  | cons a l ih =>
    intro prev
    obtain ⟨p, hp⟩ := ih (some a)
    exact ⟨p, by simpa [scanWords] using hp⟩

theorem scanWords_eq_wordRuns :
    ∀ (n : Nat) (s : Str) (prev : Option Char), s.length ≤ n →
      (isWordAt prev = false ∨ isWordAt s.head? = false) →
      scanWords prev s 0 = wordRuns s := by
  intro n
  induction n with
  | zero =>
    intro s prev hlen _
    have : s = [] := List.eq_nil_of_length_eq_zero (by omega)
    subst this
    simp [scanWords, wordRuns_nil]
  | succ n ih =>
    intro s prev hlen hpos
    cases s with
    | nil => simp [scanWords, wordRuns_nil]
    | cons c cs =>
      by_cases hc : isWordChar c = true
      · have hprev : isWordAt prev = false := by
          rcases hpos with h | h
          · exact h
          · simp [isWordAt, hc] at h
        have hsplit : c :: cs = (c :: cs.takeWhile isWordChar) ++ cs.dropWhile isWordChar := by
          simp [List.takeWhile_append_dropWhile]
        have hall : ∀ d ∈ c :: cs.takeWhile isWordChar, isWordChar d = true := by
          intro d hd
          rcases List.mem_cons.mp hd with h | h
          · exact h ▸ hc
          · exact List.mem_takeWhile_imp h
        have hrest := isWordAt_head_dropWhile cs
        have hm : matchWordAt prev (c :: cs) = some (c :: cs.takeWhile isWordChar) := by
          have := matchWordAt_run prev (c :: cs.takeWhile isWordChar) (cs.dropWhile isWordChar)
            (by simp) hall hrest hprev
          rwa [← hsplit] at this
        obtain ⟨p, hp⟩ := scanWords_skip (cs.dropWhile isWordChar) (cs.takeWhile isWordChar)
          (some c)
        rw [List.takeWhile_append_dropWhile] at hp
        have hlen2 : (cs.dropWhile isWordChar).length ≤ n := by
          have := (List.dropWhile_sublist (l := cs) isWordChar).length_le
          simp at hlen; omega
        have hIH := ih (cs.dropWhile isWordChar) p hlen2 (Or.inr hrest)
        have hruns : wordRuns (c :: cs) =
            (c :: cs.takeWhile isWordChar) :: wordRuns (cs.dropWhile isWordChar) := by
          rw [hsplit]
          generalize hr : cs.dropWhile isWordChar = rest at hrest
          cases rest with
          | nil =>
            rw [List.append_nil, wordRuns_nil]
            exact wordRuns_run_end _ (by simp) hall
          | cons d r =>
            exact wordRuns_run_sep _ (by simp) hall d r (by simpa [isWordAt] using hrest)
        simp [scanWords, hm, hp, hIH, hruns]
      · have hc2 : isWordChar c = false := by simpa using hc
        rw [scanWords, matchWordAt_sep prev c cs hc2, wordRuns_sep c cs hc2]
        exact ih cs (some c) (by simp at hlen; omega) (Or.inl (by simp [isWordAt, hc2]))

theorem matchWords_getD (s : Str) : (matchWords s).getD [] = scanWords none s 0 := by
  unfold matchWords
  cases scanWords none s 0 <;> rfl

/-- C1: for every text, the tokens are exactly the maximal runs of word
characters of the lowercased text, in order and with repetitions (the text cut
at every character that is not a word character, empty pieces dropped); the
array `words` is `null` exactly when there is no such run; and
`Hello, World! 123` gives `hello`, `world`, `123`. -/
theorem tokenize_eq_wordRuns (env : Env) (content : Str) :
    tokenize env content = wordRuns (env.toLowerCase content) ∧
    (wordsOf env content =
      if wordRuns (env.toLowerCase content) = [] then none
      else some (wordRuns (env.toLowerCase content))) ∧
    tokenize sampleEnv "Hello, World! 123".toList =
      ["hello".toList, "world".toList, "123".toList] := by
  have h : scanWords none (env.toLowerCase content) 0 = wordRuns (env.toLowerCase content) :=
    scanWords_eq_wordRuns _ _ none (Nat.le_refl _) (Or.inl rfl)
  refine ⟨?_, ?_, by decide⟩
  · rw [tokenize, wordsOf, matchWords_getD, h]
  · rw [wordsOf, matchWords, h]
    cases wordRuns (env.toLowerCase content) <;> simp

/-! ## Own properties: lookup after a write -/

theorem lookup_update_ne {β : Type} (t : Props β) (k k2 : Str) (v : β) (hne : k ≠ k2) :
    (t.map (fun e => if e.1 = k then (k, v) else e)).lookup k2 = t.lookup k2 := by
  induction t with
  | nil => rfl
  | cons a l ih =>
    obtain ⟨a1, a2⟩ := a
    by_cases hak : a1 = k
    · have h1 : (k2 == k) = false := by simpa using fun h' => hne h'.symm
      have h2 : (k2 == a1) = false := by rw [hak]; exact h1
      simp only [List.map_cons, hak, if_true, List.lookup_cons, h1, ih]
    · by_cases h2 : k2 = a1
      · simp [List.lookup_cons, hak, h2]
      · have h3 : (k2 == a1) = false := by simpa using h2
        simp only [List.map_cons, hak, if_false, List.lookup_cons, h3, ih]

theorem lookup_update_self {β : Type} (t : Props β) (k : Str) (v : β)
    (h : t.any (fun e => e.1 == k) = true) :
    (t.map (fun e => if e.1 = k then (k, v) else e)).lookup k = some v := by
  induction t with
  | nil => simp at h
  | cons a l ih =>
    obtain ⟨a1, a2⟩ := a
    by_cases hak : a1 = k
    · simp [List.lookup_cons, hak]
    · have hb : (a1 == k) = false := by simpa using hak
      have hl : l.any (fun e => e.1 == k) = true := by
        rw [List.any_cons] at h
        simp only [hb, Bool.false_or] at h
        exact h
      have h3 : (k == a1) = false := by simpa using fun h' => hak h'.symm
      simp only [List.map_cons, hak, if_false, List.lookup_cons, h3, ih hl]

theorem lookup_snoc {β : Type} (t : Props β) (k k2 : Str) (v : β) :
    (t ++ [(k, v)]).lookup k2 =
      match t.lookup k2 with
      | some x => some x
      | none => if k2 = k then some v else none := by
  induction t with
  | nil =>
    by_cases h : k2 = k
    · simp [List.lookup, h]
    · have h3 : (k2 == k) = false := by simpa using h
      simp [List.lookup, h, h3]
  | cons a l ih =>
    obtain ⟨a1, a2⟩ := a
    by_cases h2 : k2 = a1
    · simp [List.lookup_cons, h2]
    · have h3 : (k2 == a1) = false := by simpa using h2
      simp only [List.cons_append, List.lookup_cons, h3, ih]

theorem lookup_none_of_not_any {β : Type} (t : Props β) (k : Str)
    (h : ¬ t.any (fun e => e.1 == k) = true) : t.lookup k = none := by
  induction t with
  | nil => rfl
  | cons a l ih =>
    obtain ⟨a1, a2⟩ := a
    have hak : ¬ a1 = k := by
      intro h'; apply h; simp [h']
    have hl : ¬ l.any (fun e => e.1 == k) = true := by
      intro h'; apply h; simp only [List.any_cons, h', Bool.or_true]
    have h3 : (k == a1) = false := by simpa using fun h' => hak h'.symm
    simp only [List.lookup_cons, h3, ih hl]

theorem lookup_setOwn_self {β : Type} (t : Props β) (k : Str) (v : β) :
    (setOwn t k v).lookup k = some v := by
  unfold setOwn
  split
  · rename_i h
    exact lookup_update_self t k v h
  · rename_i h
    rw [lookup_snoc, lookup_none_of_not_any t k h]
    simp

theorem lookup_setOwn_ne {β : Type} (t : Props β) (k k2 : Str) (v : β) (hne : k ≠ k2) :
    (setOwn t k v).lookup k2 = t.lookup k2 := by
  unfold setOwn
  split
  · exact lookup_update_ne t k k2 v hne
  · rw [lookup_snoc]
    have : ¬ k2 = k := fun h' => hne h'.symm
    cases t.lookup k2 <;> simp [this]

theorem lookup_setOwn {β : Type} (t : Props β) (k k2 : Str) (v : β) :
    (setOwn t k v).lookup k2 = if k2 = k then some v else t.lookup k2 := by
  by_cases h : k2 = k
  · subst h; simp [lookup_setOwn_self]
  · simp only [h, if_false]
    exact lookup_setOwn_ne t k k2 v (fun h' => h h'.symm)

theorem keys_setOwn {β : Type} (t : Props β) (k : Str) (v : β) :
    (setOwn t k v).map Prod.fst =
      if k ∈ t.map Prod.fst then t.map Prod.fst else t.map Prod.fst ++ [k] := by
  have hany : t.any (fun e => e.1 == k) = true ↔ k ∈ t.map Prod.fst := by
    simp only [List.any_eq_true, beq_iff_eq, List.mem_map]
  unfold setOwn
  by_cases h : t.any (fun e => e.1 == k) = true
  · rw [if_pos h, if_pos (hany.mp h), List.map_map]
    apply List.map_congr_left
    intro e _
    by_cases hek : e.1 = k
    · simp [hek]
    · simp [hek]
  · rw [if_neg h, if_neg (fun h' => h (hany.mpr h'))]
    simp

theorem nodup_keys_setOwn {β : Type} (t : Props β) (k : Str) (v : β)
    (h : (t.map Prod.fst).Nodup) : ((setOwn t k v).map Prod.fst).Nodup := by
  rw [keys_setOwn]
  split
  · exact h
  · rename_i hk
    exact List.Nodup.append h (List.nodup_singleton k) (List.disjoint_singleton.mpr hk)

theorem lookup_of_mem_nodup {β : Type} (t : Props β) (k : Str) (v : β)
    (hn : (t.map Prod.fst).Nodup) (hm : (k, v) ∈ t) : t.lookup k = some v := by
  induction t with
  | nil => simp at hm
  | cons a l ih =>
    obtain ⟨a1, a2⟩ := a
    simp only [List.map_cons, List.nodup_cons] at hn
    rcases List.mem_cons.mp hm with h | h
    · simp only [Prod.mk.injEq] at h
      obtain ⟨h1, h2⟩ := h
      subst h1 h2
      simp [List.lookup_cons]
    · have hne : ¬ k = a1 := by
        intro h'
        apply hn.1
        rw [← h']
        exact List.mem_map.mpr ⟨(k, v), h, rfl⟩
      have h3 : (k == a1) = false := by simpa using hne
      simp only [List.lookup_cons, h3]
      exact ih hn.2 h

theorem mem_of_lookup {β : Type} (t : Props β) (k : Str) (v : β)
    (h : t.lookup k = some v) : (k, v) ∈ t := by
  induction t with
  | nil => simp at h
  | cons a l ih =>
    obtain ⟨a1, a2⟩ := a
    by_cases hk : k = a1
    · subst hk
      simp [List.lookup_cons] at h
      simp [h]
    · have h3 : (k == a1) = false := by simpa using hk
      simp only [List.lookup_cons, h3] at h
      exact List.mem_cons_of_mem _ (ih h)

/-! ## The count table -/

theorem countWords_snoc (ws : List Str) (w : Str) :
    countWords (ws ++ [w]) =
      assignCount (countWords ws) w (nextCount (countWords ws) w) := by
  simp [countWords, List.foldl_append]

theorem nodup_keys_countWords (ws : List Str) : ((countWords ws).map Prod.fst).Nodup := by
  induction ws using List.reverseRecOn with
  | nil => simp [countWords]
  | append_singleton ws w ih =>
    rw [countWords_snoc]
    unfold assignCount
    split
    · exact ih
    · exact nodup_keys_setOwn _ _ _ ih

theorem countWords_lookup (ws : List Str) (hsafe : ∀ w ∈ ws, inheritedName w = false)
    (w : Str) :
    (countWords ws).lookup w =
      if ws.count w = 0 then none else some (.num (ws.count w)) := by
  induction ws using List.reverseRecOn generalizing w with
  | nil => simp [countWords]
  | append_singleton ws x ih =>
    have hsafe' : ∀ w ∈ ws, inheritedName w = false :=
      fun w hw => hsafe w (List.mem_append_left _ hw)
    have hx : inheritedName x = false := hsafe x (by simp)
    have hproto : ¬ x = "__proto__".toList := by
      intro h; rw [h] at hx; revert hx; decide
    have hinh : objectPrototype.lookup x = none := by
      simpa [inheritedName] using hx
    have hnext : nextCount (countWords ws) x = .num (ws.count x + 1) := by
      unfold nextCount
      rw [ih hsafe' x, hinh]
      by_cases hc : ws.count x = 0
      · simp [hc]
      · simp [hc]
    rw [countWords_snoc, assignCount, if_neg hproto, hnext, lookup_setOwn, ih hsafe' w,
      List.count_append]
    by_cases hwx : w = x
    · subst hwx; simp
    · have : ¬ x = w := fun h => hwx h.symm
      simp [hwx, List.count_singleton, this]

theorem perm_binaryInsert (sorted : List (Str × CountVal)) (pivot : Str × CountVal) :
    (binaryInsert sorted pivot).Perm (pivot :: sorted) := by
  unfold binaryInsert
  refine List.perm_middle.trans (List.Perm.cons _ ?_)
  rw [List.take_append_drop]

theorem perm_binaryInsertionSort (rest : List (Str × CountVal)) :
    ∀ sorted : List (Str × CountVal),
      (binaryInsertionSort sorted rest).Perm (sorted ++ rest) := by
  induction rest with
  | nil => intro sorted; simp [binaryInsertionSort]
  | cons p rest ih =>
    intro sorted
    rw [binaryInsertionSort]
    refine (ih _).trans ?_
    refine ((perm_binaryInsert sorted p).append_right rest).trans ?_
    exact List.perm_middle.symm

theorem perm_v8Sort (l : List (Str × CountVal)) : (v8Sort l).Perm l := by
  match l with
  | [] => exact List.Perm.refl _
  | [a] => exact List.Perm.refl _
  | a :: b :: rest =>
    rw [v8Sort]
    split
    · refine (perm_binaryInsertionSort _ _).trans ?_
      refine ((List.reverse_perm _).append_right _).trans ?_
      rw [List.take_append_drop]
    · refine (perm_binaryInsertionSort _ _).trans ?_
      rw [List.take_append_drop]

theorem perm_jsSort (l : List (Str × CountVal)) : (jsSort l).Perm l := by
  unfold jsSort
  split
  · exact List.perm_insertionSort _ _
  · exact perm_v8Sort l

theorem mem_jsSort (l : List (Str × CountVal)) (x : Str × CountVal) :
    x ∈ jsSort l ↔ x ∈ l :=
  (perm_jsSort l).mem_iff

theorem comparatorConsistent_of_numeric (l : List (Str × CountVal))
    (hnum : ∀ x ∈ l, numeric x) : comparatorConsistent l = true := by
  unfold comparatorConsistent
  simp only [List.all_eq_true]
  intro x hx y hy z hz
  obtain ⟨a, ha⟩ := hnum x hx
  obtain ⟨b, hb⟩ := hnum y hy
  obtain ⟨c, hc⟩ := hnum z hz
  simp only [sortCompare, compareFn, toNumber, ha, hb, hc, Option.getD_some, Bool.or_eq_true,
    Bool.not_eq_true', Bool.and_eq_false_iff, beq_eq_false_iff_ne, beq_iff_eq, ne_eq]
  omega

theorem jsSort_of_numeric (l : List (Str × CountVal)) (hnum : ∀ x ∈ l, numeric x) :
    jsSort l = l.insertionSort (fun x y => sortCompare x y ≤ 0) := by
  unfold jsSort
  rw [if_pos (comparatorConsistent_of_numeric l hnum)]

theorem mem_objectEntries {β : Type} (t : Props β) (e : Str × β) :
    e ∈ objectEntries t ↔ e ∈ t := by
  unfold objectEntries
  rw [List.mem_append, List.mem_insertionSort, List.mem_filter, List.mem_filter]
  cases h : arrayIndex e.1 <;> simp

theorem perm_objectEntries {β : Type} (t : Props β) : (objectEntries t).Perm t := by
  unfold objectEntries
  have h2 : t.filter (fun e => (arrayIndex e.1).isNone) =
      t.filter (fun e => !(arrayIndex e.1).isSome) := by
    apply List.filter_congr
    intro e _
    cases arrayIndex e.1 <;> rfl
  rw [h2]
  exact ((List.perm_insertionSort _ _).append_right _).trans (List.filter_append_perm _ t)

theorem slice0_sublist {α : Type} (l : List α) (k : Int) : (slice0 l k).Sublist l := by
  unfold slice0
  split <;> exact List.take_sublist _ _

theorem mem_table_of_mem_sortedWordCounts (t : Table) (mf n : Option Int) (e : RankedEntry)
    (he : e ∈ sortedWordCounts t mf n) : (e.word, e.count) ∈ t := by
  unfold sortedWordCounts at he
  obtain ⟨p, hp, rfl⟩ := List.mem_map.mp he
  have h1 := (slice0_sublist _ _).subset hp
  have h2 := (List.mem_filter.mp h1).1
  rw [mem_jsSort, mem_objectEntries] at h2
  exact h2

/-- For a token sequence none of whose words names a member inherited from
`Object.prototype`, each entry of the ranked result carries the number of
occurrences of its word in the sequence, and that word occurs in it. -/
theorem count_eq_occurrences (ws : List Str) (hsafe : ∀ w ∈ ws, inheritedName w = false)
    (mf n : Option Int) (e : RankedEntry) (he : e ∈ aggregate ws mf n) :
    e.count = .num (ws.count e.word) ∧ e.word ∈ ws := by
  have hm := mem_table_of_mem_sortedWordCounts _ mf n e he
  have hl := lookup_of_mem_nodup _ _ _ (nodup_keys_countWords ws) hm
  rw [countWords_lookup ws hsafe] at hl
  by_cases hc : ws.count e.word = 0
  · simp [hc] at hl
  · simp only [hc, if_false, Option.some.injEq] at hl
    exact ⟨hl.symm, List.count_pos_iff.mp (Nat.pos_of_ne_zero hc)⟩

/-- C2: the page text `constructor` (one occurrence of the word) is answered
with the count `function Object() { [native code] }1`, a string, instead of
the number of occurrences 1: `wordCounts` is a plain object and
`wordCounts["constructor"]` is the inherited `Object` function. -/
theorem constructor_count_is_text :
    aggregate ["constructor".toList] none none =
      [{ word := "constructor".toList,
         count := .text "function Object() \x7b [native code] \x7d1" }] ∧
    List.count "constructor".toList ["constructor".toList] = 1 ∧
    (finishRequest sampleEnv [] (plainRequest "http://example.com")
        (.content "constructor".toList)).2 =
      { status := 200,
        body := .wordFrequencies
          [{ word := "constructor".toList,
             count := .text "function Object() \x7b [native code] \x7d1" }] } := by
  decide

/-! ## Order of the ranked result -/

theorem sortCompare_le_iff (x y : Str × CountVal) (a b : Nat) (hx : x.2 = .num a)
    (hy : y.2 = .num b) : sortCompare x y ≤ 0 ↔ b ≤ a := by
  simp [sortCompare, compareFn, toNumber, hx, hy]

theorem pairwise_orderedInsert (a : Str × CountVal) (ha : numeric a) :
    ∀ l : List (Str × CountVal), (∀ x ∈ l, numeric x) →
      l.Pairwise (fun x y => sortCompare x y ≤ 0) →
      (l.orderedInsert (fun x y => sortCompare x y ≤ 0) a).Pairwise
        (fun x y => sortCompare x y ≤ 0) := by
  intro l
  induction l with
  | nil => intro _ _; simp
  | cons b l ih =>
    intro hnum hp
    obtain ⟨ca, hca⟩ := ha
    obtain ⟨cb, hcb⟩ := hnum b (List.mem_cons_self _ _)
    rw [List.pairwise_cons] at hp
    rw [List.orderedInsert]
    split
    · rename_i hab
      rw [List.pairwise_cons]
      refine ⟨?_, List.pairwise_cons.mpr hp⟩
      intro y hy
      rcases List.mem_cons.mp hy with h | h
      · rw [h]; exact hab
      · obtain ⟨cy, hcy⟩ := hnum y (List.mem_cons_of_mem _ h)
        have h1 := (sortCompare_le_iff a b ca cb hca hcb).mp hab
        have h2 := (sortCompare_le_iff b y cb cy hcb hcy).mp (hp.1 y h)
        exact (sortCompare_le_iff a y ca cy hca hcy).mpr (by omega)
    · rename_i hab
      rw [List.pairwise_cons]
      refine ⟨?_, ih (fun x hx => hnum x (List.mem_cons_of_mem _ hx)) hp.2⟩
      intro y hy
      rcases (List.mem_orderedInsert _).mp hy with h | h
      · rw [h]
        have h1 : ¬ cb ≤ ca := fun h' => hab ((sortCompare_le_iff a b ca cb hca hcb).mpr h')
        exact (sortCompare_le_iff b a cb ca hcb hca).mpr (by omega)
      · exact hp.1 y h

theorem pairwise_jsSort (l : List (Str × CountVal)) (hnum : ∀ x ∈ l, numeric x) :
    (jsSort l).Pairwise (fun x y => sortCompare x y ≤ 0) := by
  rw [jsSort_of_numeric l hnum]
  induction l with
  | nil => simp
  | cons a l ih =>
    rw [List.insertionSort]
    have hl : ∀ x ∈ l, numeric x := fun x hx => hnum x (List.mem_cons_of_mem _ hx)
    exact pairwise_orderedInsert a (hnum a (List.mem_cons_self _ _)) _
      (fun x hx => hl x ((List.mem_insertionSort _).mp hx)) (ih hl)

theorem nonIncreasing_of_pairwise :
    ∀ r : List RankedEntry,
      r.Pairwise (fun x y => countGe x.count y.count = true) → nonIncreasing r := by
  intro r
  induction r with
  | nil => intro _; trivial
  | cons x l ih =>
    intro hp
    cases l with
    | nil => trivial
    | cons y rest =>
      rw [List.pairwise_cons] at hp
      exact ⟨hp.1 y (List.mem_cons_self _ _), ih hp.2⟩

theorem numeric_countWords (ws : List Str) (hsafe : ∀ w ∈ ws, inheritedName w = false) :
    ∀ x ∈ countWords ws, numeric x := by
  intro x hx
  have hl := lookup_of_mem_nodup _ x.1 x.2 (nodup_keys_countWords ws) hx
  rw [countWords_lookup ws hsafe] at hl
  by_cases hc : ws.count x.1 = 0
  · simp [hc] at hl
  · simp only [hc, if_false, Option.some.injEq] at hl
    exact ⟨_, hl.symm⟩

theorem pairwise_sortedWordCounts (t : Table) (hnum : ∀ x ∈ t, numeric x)
    (mf n : Option Int) :
    (sortedWordCounts t mf n).Pairwise (fun x y => countGe x.count y.count = true) := by
  have h0 := pairwise_jsSort (objectEntries t)
    (fun x hx => hnum x ((mem_objectEntries t x).mp hx))
  have h1 := (h0.filter (passesMin mf)).sublist (slice0_sublist _ (sliceEnd n))
  unfold sortedWordCounts
  rw [List.pairwise_map]
  refine h1.imp_of_mem ?_
  intro x y hx hy hxy
  have hx' : x ∈ t := by
    have := (List.mem_filter.mp ((slice0_sublist _ _).subset hx)).1
    rwa [mem_jsSort, mem_objectEntries] at this
  have hy' : y ∈ t := by
    have := (List.mem_filter.mp ((slice0_sublist _ _).subset hy)).1
    rwa [mem_jsSort, mem_objectEntries] at this
  obtain ⟨a, ha⟩ := hnum x hx'
  obtain ⟨b, hb⟩ := hnum y hy'
  have := (sortCompare_le_iff x y a b ha hb).mp hxy
  simp [countGe, toNumber, ha, hb, this]

/-- For a token sequence none of whose words names a member inherited from
`Object.prototype`, the ranked result is in non-increasing order of count,
whatever `minFrequency` and `n` are. -/
theorem nonIncreasing_of_safe (ws : List Str) (hsafe : ∀ w ∈ ws, inheritedName w = false)
    (mf n : Option Int) : nonIncreasing (aggregate ws mf n) :=
  nonIncreasing_of_pairwise _
    (pairwise_sortedWordCounts _ (numeric_countWords ws hsafe) mf n)

/-- C3: for the tokens `constructor`, `a` the result holds the string count of
`constructor` and the count 1 of `a`; neither is greater than or equal to the
other, so the result is not non-increasing, in whichever order the two
entries stand. -/
theorem constructor_breaks_order :
    aggregate ["constructor".toList, "a".toList] none none =
      [{ word := "constructor".toList,
         count := .text "function Object() \x7b [native code] \x7d1" },
       { word := "a".toList, count := .num 1 }] ∧
    ¬ nonIncreasing (aggregate ["constructor".toList, "a".toList] none none) ∧
    ¬ nonIncreasing (aggregate ["constructor".toList, "a".toList] none none).reverse := by
  have h : aggregate ["constructor".toList, "a".toList] none none =
      [{ word := "constructor".toList,
         count := .text "function Object() \x7b [native code] \x7d1" },
       { word := "a".toList, count := .num 1 }] := by decide
  refine ⟨h, ?_, ?_⟩
  · rw [h]; simp [nonIncreasing, countGe, toNumber]
  · rw [h]; simp [nonIncreasing, countGe, toNumber]

/-! ## Truncation -/

theorem length_slice0_le {α : Type} (l : List α) (k : Int) (hk : 0 ≤ k) :
    ((slice0 l k).length : Int) ≤ k := by
  have h : ¬ k < 0 := by omega
  simp only [slice0, h, if_false, List.length_take]
  omega

theorem length_sortedWordCounts_le (t : Table) (minFrequency n : Option Int)
    (hn : 0 ≤ sliceEnd n) :
    ((sortedWordCounts t minFrequency n).length : Int) ≤ sliceEnd n := by
  simp only [sortedWordCounts, List.length_map]
  exact length_slice0_le _ _ hn

/-- C5: for every token sequence and every `minFrequency`, the ranked result
has at most `n` entries when the request gives `n >= 1`, and at most 10
entries when `n` is absent. -/
theorem length_le_topN (ws : List Str) (minFrequency : Option Int) (k : Int) (hk : 1 ≤ k) :
    ((aggregate ws minFrequency (some k)).length : Int) ≤ k ∧
    (aggregate ws minFrequency none).length ≤ 10 := by
  constructor
  · have h := length_sortedWordCounts_le (countWords ws) minFrequency (some k)
      (by simp only [sliceEnd]; split <;> omega)
    have hk0 : k ≠ 0 := by omega
    simpa [sliceEnd, hk0, aggregate] using h
  · have h := length_sortedWordCounts_le (countWords ws) minFrequency none
      (by simp [sliceEnd])
    simp only [sliceEnd] at h
    unfold aggregate
    omega

theorem length_le_topN_witness :
    (1 : Int) ≤ 2 ∧
    (((aggregate ["a".toList, "b".toList, "a".toList, "c".toList] none (some 2)).length : Int) ≤ 2 ∧
     (aggregate ["a".toList, "b".toList, "a".toList, "c".toList] none none).length ≤ 10) :=
  ⟨by decide, length_le_topN ["a".toList, "b".toList, "a".toList, "c".toList] none 2 (by decide)⟩

theorem mem_keys_countWords (ws : List Str) (hsafe : ∀ w ∈ ws, inheritedName w = false)
    (w : Str) : w ∈ (countWords ws).map Prod.fst ↔ w ∈ ws := by
  constructor
  · intro h
    obtain ⟨x, hx, rfl⟩ := List.mem_map.mp h
    have hl := lookup_of_mem_nodup _ x.1 x.2 (nodup_keys_countWords ws) hx
    rw [countWords_lookup ws hsafe] at hl
    by_cases hc : ws.count x.1 = 0
    · simp [hc] at hl
    · exact List.count_pos_iff.mp (Nat.pos_of_ne_zero hc)
  · intro h
    have hc : ws.count w ≠ 0 := Nat.pos_iff_ne_zero.mp (List.count_pos_iff.mpr h)
    have hl := countWords_lookup ws hsafe w
    simp only [hc, if_false] at hl
    exact List.mem_map.mpr ⟨_, mem_of_lookup _ _ _ hl, rfl⟩

theorem keys_countWords_perm (ws : List Str) (hsafe : ∀ w ∈ ws, inheritedName w = false) :
    ((countWords ws).map Prod.fst).Perm ws.dedup :=
  (List.perm_ext_iff_of_nodup (nodup_keys_countWords ws) (List.nodup_dedup ws)).mpr
    (fun w => by rw [mem_keys_countWords ws hsafe, List.mem_dedup])

theorem passesMin_of_count (mf : Option Int) (w : Str) (c : Nat) :
    passesMin mf (w, .num c) = meetsMin mf c := rfl

theorem mem_filtered_of_meets (ws : List Str) (hsafe : ∀ w ∈ ws, inheritedName w = false)
    (mf : Option Int) (w : Str) (hw : w ∈ ws) (hm : meetsMin mf (ws.count w) = true) :
    (w, CountVal.num (ws.count w)) ∈
      (jsSort (objectEntries (countWords ws))).filter (passesMin mf) := by
  have hc : ws.count w ≠ 0 := Nat.pos_iff_ne_zero.mp (List.count_pos_iff.mpr hw)
  have hl := countWords_lookup ws hsafe w
  simp only [hc, if_false] at hl
  rw [List.mem_filter]
  refine ⟨?_, by rw [passesMin_of_count]; exact hm⟩
  rw [mem_jsSort, mem_objectEntries]
  exact mem_of_lookup _ _ _ hl

theorem length_filtered (ws : List Str) (hsafe : ∀ w ∈ ws, inheritedName w = false)
    (mf : Option Int) :
    ((jsSort (objectEntries (countWords ws))).filter (passesMin mf)).length =
      (ws.dedup.filter (fun w => meetsMin mf (ws.count w))).length := by
  have hperm : (jsSort (objectEntries (countWords ws))).Perm (countWords ws) :=
    (perm_jsSort _).trans (perm_objectEntries _)
  rw [← List.countP_eq_length_filter, ← List.countP_eq_length_filter, hperm.countP_eq,
    ← (keys_countWords_perm ws hsafe).countP_eq, List.countP_map]
  apply List.countP_congr
  intro x hx
  have hl := lookup_of_mem_nodup _ x.1 x.2 (nodup_keys_countWords ws) hx
  rw [countWords_lookup ws hsafe] at hl
  by_cases hc : ws.count x.1 = 0
  · simp [hc] at hl
  · simp only [hc, if_false, Option.some.injEq] at hl
    have hx2 : x = (x.1, CountVal.num (ws.count x.1)) := by rw [hl]
    rw [hx2, passesMin_of_count]
    simp

/-- For a token sequence none of whose words names a member inherited from
`Object.prototype`, and `n >= 1`: the result has `min(n, number of distinct
words meeting minFrequency)` entries, and a word that meets `minFrequency` and
is left out occurs at most as often as every word kept. -/
theorem topN_of_safe (ws : List Str) (hsafe : ∀ w ∈ ws, inheritedName w = false)
    (mf : Option Int) (k : Int) (hk : 1 ≤ k) :
    (aggregate ws mf (some k)).length =
      min k.toNat (ws.dedup.filter (fun w => meetsMin mf (ws.count w))).length ∧
    ∀ w ∈ ws, meetsMin mf (ws.count w) = true →
      w ∉ (aggregate ws mf (some k)).map RankedEntry.word →
      ∀ e ∈ aggregate ws mf (some k), ws.count w ≤ ws.count e.word := by
  have hk0 : ¬ k = 0 := by omega
  have hkneg : ¬ k < 0 := by omega
  have hagg : aggregate ws mf (some k) =
      (((jsSort (objectEntries (countWords ws))).filter (passesMin mf)).take k.toNat).map
        (fun e => { word := e.1, count := e.2 }) := by
    simp [aggregate, sortedWordCounts, sliceEnd, slice0, hk0, hkneg]
  refine ⟨?_, ?_⟩
  · rw [hagg, List.length_map, List.length_take, length_filtered ws hsafe mf]
  · intro w hw hm hout e he
    have hwF := mem_filtered_of_meets ws hsafe mf w hw hm
    have hsorted : ((jsSort (objectEntries (countWords ws))).filter (passesMin mf)).Pairwise
        (fun x y => sortCompare x y ≤ 0) :=
      (pairwise_jsSort _ (fun x hx => numeric_countWords ws hsafe x
        ((mem_objectEntries _ x).mp hx))).filter _
    have hcount := (count_eq_occurrences ws hsafe mf (some k) e he).1
    rw [hagg] at hout he
    obtain ⟨x, hx, rfl⟩ := List.mem_map.mp he
    have hwdrop : (w, CountVal.num (ws.count w)) ∈
        ((jsSort (objectEntries (countWords ws))).filter (passesMin mf)).drop k.toNat := by
      have := hwF
      rw [← List.take_append_drop k.toNat
        ((jsSort (objectEntries (countWords ws))).filter (passesMin mf)), List.mem_append] at this
      rcases this with h | h
      · exact absurd (List.mem_map.mpr ⟨_, List.mem_map.mpr ⟨_, h, rfl⟩, rfl⟩) hout
      · exact h
    have hrel := List.Sorted.rel_of_mem_take_of_mem_drop hsorted hx hwdrop
    exact (sortCompare_le_iff x _ _ _ hcount rfl).mp hrel

/-- C4: for the tokens `constructor`, `a`, `a` and `n = 1` the single entry
kept is `constructor` (one occurrence), and the word `a`, which occurs twice,
is left out. -/
theorem constructor_beats_top :
    aggregate ["constructor".toList, "a".toList, "a".toList] none (some 1) =
      [{ word := "constructor".toList,
         count := .text "function Object() \x7b [native code] \x7d1" }] ∧
    List.count "a".toList ["constructor".toList, "a".toList, "a".toList] = 2 ∧
    List.count "constructor".toList ["constructor".toList, "a".toList, "a".toList] = 1 ∧
    countGe (.text "function Object() \x7b [native code] \x7d1") (.num 2) = false := by
  decide

/-! ## The threshold `minFrequency` -/

/-- The threshold filter: for every `minFrequency > 0` each entry of the result
has a numeric count of at least `minFrequency`; the result is the truncation
of the ranked entries that pass the filter, and for a token sequence without
inherited names every word occurring at least `minFrequency` times is among
them; with `minFrequency` 0 or absent the filter removes nothing. -/
theorem minFrequency_filter (ws : List Str) (n : Option Int) (m : Int) (hm : 0 < m) :
    (∀ e ∈ aggregate ws (some m) n, ∃ c : Nat, e.count = .num c ∧ m ≤ c) ∧
    ((∀ w ∈ ws, inheritedName w = false) →
      ∀ w ∈ ws, m ≤ ws.count w →
        (w, CountVal.num (ws.count w)) ∈
          (jsSort (objectEntries (countWords ws))).filter (passesMin (some m))) ∧
    (jsSort (objectEntries (countWords ws))).filter (passesMin (some 0)) =
      jsSort (objectEntries (countWords ws)) ∧
    (jsSort (objectEntries (countWords ws))).filter (passesMin none) =
      jsSort (objectEntries (countWords ws)) := by
  have hm0 : ¬ m = 0 := by omega
  refine ⟨?_, ?_, ?_, ?_⟩
  · intro e he
    unfold aggregate sortedWordCounts at he
    obtain ⟨p, hp, rfl⟩ := List.mem_map.mp he
    have h2 := (List.mem_filter.mp ((slice0_sublist _ _).subset hp)).2
    obtain ⟨p1, p2⟩ := p
    cases p2 with
    | num c => exact ⟨c, rfl, by simpa [passesMin, toNumber, hm0] using h2⟩
    | text s => simp [passesMin, toNumber, hm0] at h2
  · intro hsafe w hw hc
    exact mem_filtered_of_meets ws hsafe (some m) w hw (by simp [meetsMin, hc])
  · exact List.filter_eq_self.mpr (fun x _ => by simp [passesMin])
  · exact List.filter_eq_self.mpr (fun x _ => by simp [passesMin])

/-- C6: for the tokens `constructor`, `constructor` and `minFrequency = 2` the
result is empty, although the word occurs twice; with `minFrequency` absent its
entry is present, with a string as count. -/
theorem constructor_fails_minFrequency :
    aggregate ["constructor".toList, "constructor".toList] (some 2) none = [] ∧
    List.count "constructor".toList ["constructor".toList, "constructor".toList] = 2 ∧
    aggregate ["constructor".toList, "constructor".toList] none none =
      [{ word := "constructor".toList,
         count := .text "function Object() \x7b [native code] \x7d11" }] := by
  decide

/-! ## The numeral filter -/

theorem nonEmptyAll_iff (p : Char → Bool) (s : Str) :
    nonEmptyAll p s = true ↔ s ≠ [] ∧ ∀ c ∈ s, p c = true := by
  cases s <;> simp [nonEmptyAll]

theorem not_space_of_word (c : Char) (h : isWordChar c = true) : isJSSpace c = false := by
  simp only [isWordChar, Bool.or_eq_true, Bool.and_eq_true, decide_eq_true_eq, beq_iff_eq] at h
  simp only [isJSSpace, isSpaceUnit, Bool.or_eq_false_iff, Bool.and_eq_false_iff,
    decide_eq_false_iff_not, beq_eq_false_iff_ne, ne_eq]
  omega

theorem dropWhile_head_false {α : Type} (p : α → Bool) (a : α) (l : List α) (h : p a = false) :
    (a :: l).dropWhile p = a :: l := by
  simp [List.dropWhile_cons, h]

theorem jsTrim_word (w : Str) (hword : ∀ c ∈ w, isWordChar c = true) : jsTrim w = w := by
  have h1 : ∀ l : Str, (∀ c ∈ l, isWordChar c = true) → l.dropWhile isJSSpace = l := by
    intro l hl
    cases l with
    | nil => rfl
    | cons a t => exact dropWhile_head_false _ _ _ (not_space_of_word a (hl a (List.mem_cons_self _ _)))
  unfold jsTrim
  rw [h1 w hword, h1 w.reverse (fun c hc => hword c (List.mem_reverse.mp hc)), List.reverse_reverse]

theorem takeWhile_digits_append (a : Str) (e : Char) (b : Str)
    (ha : ∀ c ∈ a, isDecDigit c = true) (he : isDecDigit e = false) :
    (a ++ e :: b).takeWhile isDecDigit = a ∧ (a ++ e :: b).dropWhile isDecDigit = e :: b := by
  induction a with
  | nil => simp [List.takeWhile_cons, List.dropWhile_cons, he]
  | cons x l ih =>
    have hx : isDecDigit x = true := ha x (List.mem_cons_self _ _)
    have := ih (fun c hc => ha c (List.mem_cons_of_mem _ hc))
    simp [List.takeWhile_cons, List.dropWhile_cons, hx, this.1, this.2]

theorem isExponentOpt_word (s : Str) (hs : s ≠ []) (hword : ∀ c ∈ s, isWordChar c = true) :
    isExponentOpt s = true ↔
      ∃ e b, s = e :: b ∧ (e = 'e' ∨ e = 'E') ∧ nonEmptyAll isDecDigit b = true := by
  cases s with
  | nil => exact absurd rfl hs
  | cons e rest =>
    cases rest with
    | nil => simp [isExponentOpt, nonEmptyAll]
    | cons c ds =>
      have hc : isWordChar c = true := hword c (by simp)
      have hsign : ¬ (c = '+' ∨ c = '-') := by
        rintro (h | h) <;> · subst h; revert hc; decide
      simp only [isExponentOpt, Bool.and_eq_true, Bool.or_eq_true, beq_iff_eq, hsign, if_false]
      constructor
      · rintro ⟨he, hb⟩
        exact ⟨e, c :: ds, rfl, he, hb⟩
      · rintro ⟨e2, b, heq, he, hb⟩
        simp only [List.cons.injEq] at heq
        obtain ⟨h1, h2⟩ := heq
        subst h1
        rw [h2]
        exact ⟨he, hb⟩

theorem isStrUnsignedDecimal_word (w : Str) (hw : w ≠ [])
    (hword : ∀ c ∈ w, isWordChar c = true) :
    isStrUnsignedDecimal w = true ↔
      (w = "Infinity".toList ∨ nonEmptyAll isDecDigit w = true ∨
        ∃ a e b, w = a ++ e :: b ∧ (e = 'e' ∨ e = 'E') ∧
          nonEmptyAll isDecDigit a = true ∧ nonEmptyAll isDecDigit b = true) := by
  have hsplit := List.takeWhile_append_dropWhile isDecDigit w
  constructor
  · intro h
    unfold isStrUnsignedDecimal at h
    rcases Bool.or_eq_true _ _ ▸ h with h | h
    · exact Or.inl (by simpa using h)
    · cases hd : w.dropWhile isDecDigit with
      | nil =>
        right; left
        rw [hd, List.append_nil] at hsplit
        rw [nonEmptyAll_iff]
        refine ⟨hw, fun c hc => ?_⟩
        rw [← hsplit] at hc
        exact List.mem_takeWhile_imp hc
      | cons c r =>
        rw [hd] at h hsplit
        have hcw : isWordChar c = true := hword c (by rw [← hsplit]; simp)
        have hdot : ¬ c = '.' := by
          intro h'; subst h'; revert hcw; decide
        simp only [beq_iff_eq, hdot, if_false, Bool.and_eq_true, Bool.not_eq_true',
          List.isEmpty_eq_false] at h
        have hexp := (isExponentOpt_word (c :: r) (by simp)
          (fun x hx => hword x (by rw [← hsplit]; exact List.mem_append_right _ hx))).mp h.2
        obtain ⟨e, b, heq, he, hb⟩ := hexp
        right; right
        refine ⟨w.takeWhile isDecDigit, e, b, ?_, he, ?_, hb⟩
        · rw [← heq]; exact hsplit.symm
        · rw [nonEmptyAll_iff]
          exact ⟨by simpa using h.1, fun x hx => List.mem_takeWhile_imp hx⟩
  · rintro (h | h | ⟨a, e, b, hwab, he, ha, hb⟩)
    · subst h; decide
    · rw [nonEmptyAll_iff] at h
      have hd : w.dropWhile isDecDigit = [] := by
        rw [List.dropWhile_eq_nil_iff]; exact h.2
      have ht : w.takeWhile isDecDigit = w := by
        rw [hd, List.append_nil] at hsplit; exact hsplit
      unfold isStrUnsignedDecimal
      rw [hd, ht]
      cases w with
      | nil => exact absurd rfl hw
      | cons x l => simp
    · rw [nonEmptyAll_iff] at ha
      have hed : isDecDigit e = false := by
        rcases he with h | h <;> · subst h; decide
      have hdot : ¬ e = '.' := by
        rcases he with h | h <;> · subst h; decide
      obtain ⟨ht, hd⟩ := takeWhile_digits_append a e b ha.2 hed
      have hexp : isExponentOpt (e :: b) = true := by
        have hb' := hb
        rw [nonEmptyAll_iff] at hb'
        refine (isExponentOpt_word (e :: b) (by simp) ?_).mpr ⟨e, b, rfl, he, hb⟩
        intro c hc
        exact hword c (by rw [hwab]; exact List.mem_append_right _ hc)
      unfold isStrUnsignedDecimal
      rw [hwab, hd, ht]
      have hane : a.isEmpty = false := by
        cases a with
        | nil => exact absurd rfl ha.1
        | cons x l => rfl
      simp [hdot, hexp, hane]

theorem isNonDecimalInteger_iff (w : Str) :
    isNonDecimalInteger w = true ↔
      ∃ x ds, w = '0' :: x :: ds ∧
        (((x = 'b' ∨ x = 'B') ∧ nonEmptyAll isBinDigit ds = true) ∨
         ((x = 'o' ∨ x = 'O') ∧ nonEmptyAll isOctDigit ds = true) ∨
         ((x = 'x' ∨ x = 'X') ∧ nonEmptyAll isHexDigit ds = true)) := by
  cases w with
  | nil => simp [isNonDecimalInteger]
  | cons z t =>
    cases t with
    | nil => simp [isNonDecimalInteger]
    | cons x ds =>
      simp only [isNonDecimalInteger, Bool.and_eq_true, Bool.or_eq_true, beq_iff_eq]
      constructor
      · rintro ⟨hz, h⟩
        exact ⟨x, ds, by rw [hz], or_assoc.mp h⟩
      · rintro ⟨x2, ds2, heq, h⟩
        simp only [List.cons.injEq] at heq
        obtain ⟨hz, hx, hds⟩ := heq
        subst hz hx hds
        exact ⟨rfl, or_assoc.mpr h⟩

theorem isNumericString_word (w : Str) (hw : w ≠ []) (hword : ∀ c ∈ w, isWordChar c = true) :
    isNumericString w = true ↔ wordNumeral w := by
  have hne : w.isEmpty = false := by
    cases w with
    | nil => exact absurd rfl hw
    | cons x l => rfl
  have hdec : isStrDecimal w = isStrUnsignedDecimal w := by
    cases w with
    | nil => exact absurd rfl hw
    | cons c rest =>
      have hc : isWordChar c = true := hword c (by simp)
      have hsign : ¬ (c = '+' ∨ c = '-') := by
        rintro (h | h) <;> · subst h; revert hc; decide
      simp [isStrDecimal, hsign]
  unfold isNumericString wordNumeral
  rw [jsTrim_word w hword, hne, hdec, Bool.false_or, Bool.or_eq_true,
    isStrUnsignedDecimal_word w hw hword, isNonDecimalInteger_iff]
  constructor
  · rintro ((h | h | h) | h)
    · exact Or.inr (Or.inr (Or.inr h))
    · exact Or.inl h
    · exact Or.inr (Or.inl h)
    · exact Or.inr (Or.inr (Or.inl h))
  · rintro (h | h | h | h)
    · exact Or.inl (Or.inr (Or.inl h))
    · exact Or.inl (Or.inr (Or.inr h))
    · exact Or.inr h
    · exact Or.inl (Or.inl h)

theorem filterTokens_numbers (env : Env) (ws : List Str) :
    filterTokens env true false ws = ws.filter (fun v => !isNumericString v) := by
  simp only [filterTokens, if_true, Bool.false_eq_true, if_false]
  rfl

/-- C7 (as stated) fails at the token `1e5`: it is a token of the text
`1e5 0x1f 45a`, it contains digits and is not made only of decimal digits, and
`removeNumbers` drops it (as it drops `0x1f`), while `45a` is kept. -/
theorem removeNumbers_drops_exponent_form :
    tokenize sampleEnv "1e5 0x1f 45a".toList = ["1e5".toList, "0x1f".toList, "45a".toList] ∧
    "1e5".toList.any isDecDigit = true ∧
    "1e5".toList.all isDecDigit = false ∧
    filterTokens sampleEnv true false ["1e5".toList, "0x1f".toList, "45a".toList] =
      ["45a".toList] := by
  decide

/-- C7 (as amended): with `removeNumbers` set, the filter keeps exactly the
tokens that do not parse in full as a numeric literal.  For a token `w` (a
non-empty string of word characters) the literals are: decimal digits; decimal
digits with an exponent (`1e5`); `0b`, `0o`, `0x` integers (`0x1f`); and
`Infinity`.  So `w` survives exactly when it is in the input and is none of
these; a token made only of decimal digits is removed; and `abc`, `123`, `45a`
give `abc`, `45a`. -/
theorem removeNumbers_drops_numerals (env : Env) (ws : List Str) (w : Str) (hw : w ≠ [])
    (hword : ∀ c ∈ w, isWordChar c = true) :
    filterTokens env true false ws = ws.filter (fun v => !isNumericString v) ∧
    (w ∈ filterTokens env true false ws ↔ w ∈ ws ∧ ¬ wordNumeral w) ∧
    (nonEmptyAll isDecDigit w = true → w ∉ filterTokens env true false ws) ∧
    filterTokens sampleEnv true false ["abc".toList, "123".toList, "45a".toList] =
      ["abc".toList, "45a".toList] := by
  have hiff := isNumericString_word w hw hword
  have hmem : w ∈ filterTokens env true false ws ↔ w ∈ ws ∧ ¬ wordNumeral w := by
    rw [filterTokens_numbers, List.mem_filter, ← hiff]
    simp
  refine ⟨filterTokens_numbers env ws, hmem, ?_, by decide⟩
  intro hd hin
  exact (hmem.mp hin).2 (Or.inl hd)

theorem removeNumbers_drops_numerals_witness :
    "45a".toList ≠ [] ∧ (∀ c ∈ "45a".toList, isWordChar c = true) ∧
    (filterTokens sampleEnv true false ["abc".toList, "123".toList, "45a".toList] =
        ["abc".toList, "123".toList, "45a".toList].filter (fun v => !isNumericString v) ∧
      ("45a".toList ∈ filterTokens sampleEnv true false
          ["abc".toList, "123".toList, "45a".toList] ↔
        "45a".toList ∈ ["abc".toList, "123".toList, "45a".toList] ∧
          ¬ wordNumeral "45a".toList) ∧
      (nonEmptyAll isDecDigit "45a".toList = true →
        "45a".toList ∉ filterTokens sampleEnv true false
          ["abc".toList, "123".toList, "45a".toList]) ∧
      filterTokens sampleEnv true false ["abc".toList, "123".toList, "45a".toList] =
        ["abc".toList, "45a".toList]) :=
  ⟨by decide, by decide,
   removeNumbers_drops_numerals sampleEnv ["abc".toList, "123".toList, "45a".toList]
     "45a".toList (by decide) (by decide)⟩

/-! ## The filter stage -/

/-- C8: for every token sequence and every setting of the two flags, the
filter stage returns the input with exactly those tokens deleted that are
numeric (when `removeNumbers` is set) or in the stopword lexicon (when
`removeStopwords` is set); the result is a subsequence of the input, so the
surviving tokens keep their order; with both flags off the sequence is
unchanged; and with a lexicon containing `the`, the tokens `the`, `cat`, `sat`
give `cat`, `sat`. -/
theorem filterTokens_deletes_only (env : Env) (rn rs : Bool) (ws : List Str) :
    filterTokens env rn rs ws =
      ws.filter (fun w => !(rn && isNumericString w) && !(rs && env.stopwords.contains w)) ∧
    List.Sublist (filterTokens env rn rs ws) ws ∧
    filterTokens env false false ws = ws ∧
    filterTokens sampleEnv false true ["the".toList, "cat".toList, "sat".toList] =
      ["cat".toList, "sat".toList] := by
  have h : filterTokens env rn rs ws =
      ws.filter (fun w => !(rn && isNumericString w) && !(rs && env.stopwords.contains w)) := by
    have hf : jsIsNaN = fun w => !isNumericString w := rfl
    cases rn <;> cases rs <;>
      simp [filterTokens, removeStopwords, hf, List.filter_filter, Bool.and_comm]
  refine ⟨h, ?_, ?_, by decide⟩
  · rw [h]; exact List.filter_sublist _
  · simp [filterTokens]

/-! ## Answers served from the cache -/

/-- No name inherited from `Object.prototype` passes the URL validation, so the
cache check `urlCache[url]` of a validated request reads own properties only. -/
theorem inherited_names_fail_validation :
    ∀ e ∈ objectPrototype, validUrl (some e.1) = false := by
  decide

theorem beginRequest_hit (cache : Cache) (req : Request) (r : List RankedEntry)
    (hvalid : validUrl req.url = true) (hr : cache.lookup (urlKey req) = some r) :
    beginRequest cache req = .respond { status := 200, body := .wordFrequencies r } := by
  simp [beginRequest, hvalid, hr]

theorem beginRequest_render (cache : Cache) (req : Request)
    (h : beginRequest cache req = .render) : cache.lookup (urlKey req) = none := by
  unfold beginRequest at h
  split at h
  · cases h
  · cases hl : cache.lookup (urlKey req) with
    | none => rfl
    | some r => simp [hl] at h

theorem step_request_respond (env : Env) (s : Server) (req : Request) (resp : Response)
    (h : beginRequest s.cache req = .respond resp) :
    step env s (.request req) = (s, some resp) := by
  simp only [step, h]

theorem answers_populates (env : Env) (s : Server) (e : Event) (req : Request)
    (r : List RankedEntry) (hans : answers env s e req r) :
    (step env s e).1.cache.lookup (urlKey req) = some r := by
  obtain ⟨hresp, hreq⟩ := hans
  cases e with
  | request q =>
    simp only at hreq
    subst hreq
    simp only [step] at hresp ⊢
    unfold beginRequest at hresp ⊢
    by_cases hv : validUrl q.url = true
    · simp only [hv, Bool.not_true, Bool.false_eq_true, if_false] at hresp ⊢
      cases hl : s.cache.lookup (urlKey q) with
      | none => simp [hl] at hresp
      | some r2 =>
        simp only [hl] at hresp ⊢
        simp at hresp
        rw [hresp]
    · simp [hv] at hresp
  | rendered i out =>
    simp only at hreq
    simp only [step, hreq] at hresp ⊢
    cases out with
    | failed resp =>
      cases resp with
      | none => simp [finishRequest] at hresp
      | some p => simp [finishRequest] at hresp
    | content text =>
      by_cases hempty : (jsTrim text).isEmpty = true
      · simp [finishRequest, hempty] at hresp
      · simp only [finishRequest, hempty, if_false] at hresp ⊢
        simp at hresp
        rw [hresp]
        exact lookup_setOwn_self _ _ _

theorem finishRequest_lookup_ne (env : Env) (cache : Cache) (q : Request) (out : RenderOutcome)
    (u : Str) (hne : urlKey q ≠ u) :
    (finishRequest env cache q out).1.lookup u = cache.lookup u := by
  cases out with
  | failed resp =>
    cases resp with
    | none => rfl
    | some p => rfl
  | content text =>
    by_cases hempty : (jsTrim text).isEmpty = true
    · simp [finishRequest, hempty]
    · simp only [finishRequest, hempty, if_false]
      exact lookup_setOwn_ne _ _ _ _ hne

theorem settled_step (env : Env) (s : Server) (u : Str) (r : List RankedEntry)
    (h : settled s u r) (e : Event) : settled (step env s e).1 u r := by
  obtain ⟨hc, hf⟩ := h
  cases e with
  | request q =>
    simp only [step]
    cases hb : beginRequest s.cache q with
    | respond r2 => exact ⟨hc, hf⟩
    | render =>
      refine ⟨hc, ?_⟩
      intro q2 hq2
      rcases List.mem_append.mp hq2 with h1 | h1
      · exact hf q2 h1
      · have : q2 = q := by simpa using h1
        subst this
        intro hu
        have := beginRequest_render s.cache q2 hb
        rw [hu, hc] at this
        cases this
  | rendered i out =>
    simp only [step]
    cases hq : s.inFlight.get? i with
    | none => exact ⟨hc, hf⟩
    | some q =>
      have hmem : q ∈ s.inFlight := List.get?_mem hq
      refine ⟨?_, ?_⟩
      · show (finishRequest env s.cache q out).1.lookup u = some r
        rw [finishRequest_lookup_ne env s.cache q out u (hf q hmem)]
        exact hc
      · intro q2 hq2
        exact hf q2 ((List.eraseIdx_sublist _ _).subset hq2)

theorem settled_runEvents (env : Env) (u : Str) (r : List RankedEntry) (es : List Event) :
    ∀ s : Server, settled s u r → settled (runEvents env s es) u r := by
  induction es with
  | nil => intro s h; exact h
  | cons e es ih => intro s h; exact ih _ (settled_step env s u r h e)

/-- C9 (as amended): once a turn has answered a request for a valid url with
status 200 and the result `r`, and no request for that url is still in flight,
then after any further turns every request for the same url, whatever its
options, is answered in the turn of its arrival with status 200 and exactly
`r`, and leaves the server state as it is: nothing is put in flight, so no
render is started and nothing is computed or stored.  The result `r` may be
the empty list. -/
theorem served_from_cache (env : Env) (s : Server) (e : Event) (req : Request)
    (r : List RankedEntry) (hans : answers env s e req r) (hvalid : validUrl req.url = true)
    (hidle : ∀ q ∈ (step env s e).1.inFlight, urlKey q ≠ urlKey req)
    (es : List Event) (req2 : Request) (hurl : req2.url = req.url) :
    step env (runEvents env (step env s e).1 es) (.request req2) =
      (runEvents env (step env s e).1 es,
        some { status := 200, body := .wordFrequencies r }) := by
  have h0 : settled (step env s e).1 (urlKey req) r :=
    ⟨answers_populates env s e req r hans, hidle⟩
  have h1 := settled_runEvents env (urlKey req) r es _ h0
  have hk : urlKey req2 = urlKey req := by simp [urlKey, hurl]
  have hb := beginRequest_hit (runEvents env (step env s e).1 es).cache req2 r
    (by rw [hurl]; exact hvalid) (by rw [hk]; exact h1.1)
  exact step_request_respond env _ req2 _ hb

theorem served_from_cache_witness :
    answers sampleEnv { cache := [], inFlight := [topOne] }
      (.rendered 0 (.content "?!".toList)) topOne [] ∧
    validUrl topOne.url = true ∧
    step sampleEnv
        (runEvents sampleEnv
          (step sampleEnv { cache := [], inFlight := [topOne] }
            (.rendered 0 (.content "?!".toList))).1
          [.request (plainRequest "http://example.org"), .rendered 0 (.content "x y".toList)])
        (.request (plainRequest "http://example.com")) =
      (runEvents sampleEnv
          (step sampleEnv { cache := [], inFlight := [topOne] }
            (.rendered 0 (.content "?!".toList))).1
          [.request (plainRequest "http://example.org"), .rendered 0 (.content "x y".toList)],
        some { status := 200, body := .wordFrequencies [] }) :=
  ⟨⟨by decide, by decide⟩, by decide,
   served_from_cache sampleEnv { cache := [], inFlight := [topOne] }
     (.rendered 0 (.content "?!".toList)) topOne [] ⟨by decide, by decide⟩ (by decide)
     (by decide)
     [.request (plainRequest "http://example.org"), .rendered 0 (.content "x y".toList)]
     (plainRequest "http://example.com") rfl⟩

/-- C9 (as stated) fails when requests overlap.  Two requests for
`http://example.com` miss the empty cache; the render of the first settles and
it is answered 200 with `a: 2`; then the render of the second settles and
stores its own result; a request for the same url that arrives afterwards is
answered with `a: 2, b: 1`, not with the result of the first. -/
theorem later_request_sees_other_result :
    answers sampleEnv twoInFlight (.rendered 0 (.content "b a a".toList)) topOne
      [{ word := "a".toList, count := .num 2 }] ∧
    (step sampleEnv
        (runEvents sampleEnv twoInFlight
          [.rendered 0 (.content "b a a".toList), .rendered 0 (.content "b a a".toList)])
        (.request topOne)).2 =
      some { status := 200,
             body := .wordFrequencies
               [{ word := "a".toList, count := .num 2 },
                { word := "b".toList, count := .num 1 }] } := by
  refine ⟨⟨by decide, by decide⟩, by decide⟩

/-! ## The cache on the error paths -/

/-- C10: a turn of the handler that does not answer with status 200 and word
frequencies (the answers 400, 404, an upstream status and 500, and a turn that
sends nothing) leaves the cache as it was; the cache changes only in a turn
that answers 200 with word frequencies. -/
theorem error_paths_keep_cache (env : Env) (s : Server) (e : Event)
    (h : ∀ r, (step env s e).2 ≠ some { status := 200, body := .wordFrequencies r }) :
    (step env s e).1.cache = s.cache := by
  cases e with
  | request req =>
    simp only [step]
    cases beginRequest s.cache req <;> rfl
  | rendered i out =>
    simp only [step] at h ⊢
    cases hq : s.inFlight.get? i with
    | none => rfl
    | some req =>
      simp only [hq] at h ⊢
      cases out with
      | failed resp =>
        cases resp with
        | none => rfl
        | some p => rfl
      | content text =>
        by_cases hempty : (jsTrim text).isEmpty = true
        · simp [finishRequest, hempty]
        · exact absurd (by simp [finishRequest, hempty])
            (h (sortedWordCounts (wordCountsOf env req.removeNumbers req.removeStopwords text)
              req.minFrequency req.n))

theorem invalid_url_answer :
    (step sampleEnv { cache := [], inFlight := [] } (.request (plainRequest "not-a-url"))).2 =
      some { status := 400, body := .error "Invalid URL format. Please enter a valid URL." } := by
  decide

theorem error_paths_keep_cache_witness :
    (∀ r, (step sampleEnv { cache := [], inFlight := [] }
        (.request (plainRequest "not-a-url"))).2 ≠
      some { status := 200, body := .wordFrequencies r }) ∧
    (step sampleEnv { cache := [], inFlight := [] }
        (.request (plainRequest "not-a-url"))).1.cache = [] :=
  ⟨fun r h => by simp [invalid_url_answer] at h,
   error_paths_keep_cache sampleEnv { cache := [], inFlight := [] }
     (.request (plainRequest "not-a-url")) (fun r h => by simp [invalid_url_answer] at h)⟩

/-! ## Blank content and malformed urls -/

theorem jsTrim_blank (text : Str) (h : blank text) : jsTrim text = [] := by
  have h1 : text.dropWhile isJSSpace = [] := by
    rw [List.dropWhile_eq_nil_iff]; exact h
  simp [jsTrim, h1]

/-- C11: for every request with a valid url that is not in the cache, and every
rendered text that is empty or made only of white space and line terminators,
the request goes to the renderer and is then answered with status 404 and the
error `The provided URL has no readable content.`, whatever the cache holds
when the render settles; the cache is left as it is. -/
theorem blank_content_not_found (env : Env) (cache : Cache) (req : Request) (text : Str)
    (hvalid : validUrl req.url = true) (hmiss : cache.lookup (urlKey req) = none)
    (hblank : blank text) :
    beginRequest cache req = .render ∧
    handle env cache req (.content text) =
      (cache, { status := 404, body := .error "The provided URL has no readable content." }) ∧
    ∀ cache2 : Cache, finishRequest env cache2 req (.content text) =
      (cache2, { status := 404, body := .error "The provided URL has no readable content." }) := by
  have hb : beginRequest cache req = .render := by
    simp [beginRequest, hvalid, hmiss]
  have hf : ∀ cache2 : Cache, finishRequest env cache2 req (.content text) =
      (cache2, { status := 404, body := .error "The provided URL has no readable content." }) := by
    intro cache2
    simp [finishRequest, jsTrim_blank text hblank]
  exact ⟨hb, by rw [handle, hb]; exact hf cache, hf⟩

theorem blank_content_not_found_witness :
    validUrl (plainRequest "http://example.com").url = true ∧
    List.lookup (urlKey (plainRequest "http://example.com")) ([] : Cache) = none ∧
    blank " \n\t ".toList ∧
    (beginRequest [] (plainRequest "http://example.com") = .render ∧
     handle sampleEnv [] (plainRequest "http://example.com") (.content " \n\t ".toList) =
       ([], { status := 404, body := .error "The provided URL has no readable content." }) ∧
     ∀ cache2 : Cache,
       finishRequest sampleEnv cache2 (plainRequest "http://example.com")
           (.content " \n\t ".toList) =
         (cache2,
           { status := 404, body := .error "The provided URL has no readable content." })) :=
  ⟨by decide, by decide, by unfold blank; decide,
   blank_content_not_found sampleEnv [] (plainRequest "http://example.com") " \n\t ".toList
     (by decide) (by decide) (by unfold blank; decide)⟩

theorem step_request_invalid (env : Env) (s : Server) (req : Request)
    (h : validUrl req.url = false) :
    step env s (.request req) =
      (s, some { status := 400,
                 body := .error "Invalid URL format. Please enter a valid URL." }) := by
  simp [step, beginRequest, h]

theorem beginRequest_miss (cache : Cache) (req : Request) (hvalid : validUrl req.url = true)
    (hmiss : cache.lookup (urlKey req) = none) : beginRequest cache req = .render := by
  simp [beginRequest, hvalid, hmiss]

/-- C12: a request whose url is missing, empty or `not-a-url` is answered in
the turn of its arrival with status 400 and `Invalid URL format. Please enter a
valid URL.`, whatever the cache holds (also an entry under that very key) and
whatever the options are; the server state is unchanged, so nothing is looked
up or rendered.  The urls `http://example.com` and `https://example.com/page`
pass the validation and, with an empty cache, go to the renderer. -/
theorem malformed_url_rejected (env : Env) (s : Server) (rs rn : Bool) (n mf : Option Int) :
    step env s (.request (Request.mk none rs rn n mf)) =
      (s, some { status := 400,
                 body := .error "Invalid URL format. Please enter a valid URL." }) ∧
    step env s (.request (Request.mk (some []) rs rn n mf)) =
      (s, some { status := 400,
                 body := .error "Invalid URL format. Please enter a valid URL." }) ∧
    step env s (.request (Request.mk (some "not-a-url".toList) rs rn n mf)) =
      (s, some { status := 400,
                 body := .error "Invalid URL format. Please enter a valid URL." }) ∧
    validUrl (some "http://example.com".toList) = true ∧
    validUrl (some "https://example.com/page".toList) = true ∧
    beginRequest [] (mkRequest "http://example.com" rs rn n mf) = .render ∧
    beginRequest [] (mkRequest "https://example.com/page" rs rn n mf) = .render := by
  have h3 : validUrl (some "not-a-url".toList) = false := by decide
  have h4 : validUrl (some "http://example.com".toList) = true := by decide
  have h5 : validUrl (some "https://example.com/page".toList) = true := by decide
  exact ⟨step_request_invalid env s _ rfl, step_request_invalid env s _ rfl,
    step_request_invalid env s _ h3, h4, h5,
    beginRequest_miss [] _ h4 rfl, beginRequest_miss [] _ h5 rfl⟩

/-! ## The url pattern and white space -/

theorem utf16_cons (c : Char) (cs : Str) :
    utf16 (c :: cs) =
      (if c.toNat < 0x10000 then [c.toNat]
       else [0xD800 + (c.toNat - 0x10000) / 0x400, 0xDC00 + (c.toNat - 0x10000) % 0x400]) ++
        utf16 cs := by
  simp [utf16]

theorem no_line_terminator_units (u : Str) (hns : ∀ c ∈ u, isJSSpace c = false) :
    ∀ x ∈ utf16 u, isLineTerminator x = false := by
  induction u with
  | nil => simp [utf16]
  | cons c cs ih =>
    intro x hx
    rw [utf16_cons, List.mem_append] at hx
    rcases hx with h | h
    · have hc := hns c (List.mem_cons_self _ _)
      simp only [isJSSpace, isSpaceUnit, Bool.or_eq_false_iff, Bool.and_eq_false_iff,
        decide_eq_false_iff_not, beq_eq_false_iff_ne, ne_eq] at hc
      simp only [isLineTerminator, Bool.or_eq_false_iff, beq_eq_false_iff_ne, ne_eq]
      split at h
      · have hx' : x = c.toNat := by simpa using h
        subst hx'
        omega
      · have hx' : x = 0xD800 + (c.toNat - 0x10000) / 0x400 ∨
            x = 0xDC00 + (c.toNat - 0x10000) % 0x400 := by simpa using h
        omega
    · exact ih (fun d hd => hns d (List.mem_cons_of_mem _ hd)) x h

theorem searchUrl_after_first (l : List Nat) :
    ∀ prev : Nat, isLineTerminator prev = false → (∀ x ∈ l, isLineTerminator x = false) →
      searchUrl (some prev) l = false := by
  induction l with
  | nil => intro _ _ _; rfl
  | cons x xs ih =>
    intro prev hprev hl
    rw [searchUrl]
    simp only [atLineStart, hprev, Bool.false_and, Bool.false_or]
    exact ih x (hl x (List.mem_cons_self _ _)) (fun y hy => hl y (List.mem_cons_of_mem _ hy))

theorem searchUrl_single_line (l : List Nat) (hl : ∀ x ∈ l, isLineTerminator x = false) :
    searchUrl none l = matchUrlAt l := by
  cases l with
  | nil => rfl
  | cons x xs =>
    rw [searchUrl, searchUrl_after_first xs x (hl x (List.mem_cons_self _ _))
      (fun y hy => hl y (List.mem_cons_of_mem _ hy))]
    simp [atLineStart]

theorem matchAfterScheme_head (l : List Nat) (h : matchAfterScheme l = true) :
    l.take 3 = [0x3A, 0x2F, 0x2F] := by
  match l with
  | [] => simp [matchAfterScheme] at h
  | [_] => simp [matchAfterScheme] at h
  | [_, _] => simp [matchAfterScheme] at h
  | [_, _, _] => simp [matchAfterScheme] at h
  | [_, _, _, _] => simp [matchAfterScheme] at h
  | a :: b :: c :: c1 :: c2 :: rest =>
    simp only [matchAfterScheme, Bool.and_eq_true, beq_iff_eq] at h
    simp [h.1.1.1.1.1, h.1.1.1.1.2, h.1.1.1.2]

theorem matchUrlAt_head (l : List Nat) (h : matchUrlAt l = true) :
    l.take 7 = [0x68, 0x74, 0x74, 0x70, 0x3A, 0x2F, 0x2F] ∨
    l.take 8 = [0x68, 0x74, 0x74, 0x70, 0x73, 0x3A, 0x2F, 0x2F] := by
  match l with
  | [] => simp [matchUrlAt] at h
  | [_] => simp [matchUrlAt] at h
  | [_, _] => simp [matchUrlAt] at h
  | [_, _, _] => simp [matchUrlAt] at h
  | h0 :: t1 :: t2 :: p :: rest =>
    simp only [matchUrlAt, Bool.and_eq_true, Bool.or_eq_true, beq_iff_eq] at h
    obtain ⟨⟨⟨⟨e0, e1⟩, e2⟩, e3⟩, hrest⟩ := h
    subst e0 e1 e2 e3
    rcases hrest with hs | hp
    · right
      cases rest with
      | nil => simp at hs
      | cons x rest1 =>
        simp only [Bool.and_eq_true, beq_iff_eq] at hs
        have := matchAfterScheme_head rest1 hs.2
        simp [hs.1, this]
    · left
      have := matchAfterScheme_head rest hp
      simp [this]

theorem char_of_ascii_unit (c : Char) (cs : Str) (x : Nat) (rest : List Nat)
    (hx : x < 0x80) (h : utf16 (c :: cs) = x :: rest) :
    c = Char.ofNat x ∧ utf16 cs = rest := by
  rw [utf16_cons] at h
  split at h
  · simp only [List.singleton_append, List.cons.injEq] at h
    refine ⟨?_, h.2⟩
    rw [← h.1, Char.ofNat_toNat]
  · simp only [List.cons_append, List.cons.injEq] at h
    omega

theorem chars_of_ascii_units (xs : List Nat) (hxs : ∀ x ∈ xs, x < 0x80) :
    ∀ u : Str, (utf16 u).take xs.length = xs → u.take xs.length = xs.map Char.ofNat := by
  induction xs with
  | nil => intro u _; simp
  | cons x xs ih =>
    intro u h
    cases u with
    | nil => simp [utf16] at h
    | cons c cs =>
      cases hu : utf16 (c :: cs) with
      | nil => rw [hu] at h; simp at h
      | cons y rest =>
        rw [hu] at h
        simp only [List.length_cons, List.take_succ_cons, List.cons.injEq] at h
        obtain ⟨hy, hrest⟩ := h
        subst hy
        obtain ⟨hc, hcs⟩ := char_of_ascii_unit c cs y rest (hxs y (List.mem_cons_self _ _)) hu
        have := ih (fun z hz => hxs z (List.mem_cons_of_mem _ hz)) cs (by rw [hcs]; exact hrest)
        simp [hc, this]

/-- A url without white space passes the validation only if it begins with
`http://` or `https://`: on such strings the pattern is anchored at the start
of the whole string. -/
theorem valid_url_without_space (u : Str) (hns : ∀ c ∈ u, isJSSpace c = false)
    (hv : validUrl (some u) = true) :
    u.take 7 = "http://".toList ∨ u.take 8 = "https://".toList := by
  simp only [validUrl, Bool.and_eq_true] at hv
  have hm : matchUrlAt (utf16 u) = true := by
    rw [← searchUrl_single_line _ (no_line_terminator_units u hns)]
    exact hv.2
  rcases matchUrlAt_head _ hm with h | h
  · left
    have := chars_of_ascii_units [0x68, 0x74, 0x74, 0x70, 0x3A, 0x2F, 0x2F] (by decide) u h
    simpa using this
  · right
    have := chars_of_ascii_units [0x68, 0x74, 0x74, 0x70, 0x73, 0x3A, 0x2F, 0x2F] (by decide) u h
    simpa using this

/-- C13: the urls `http://a b` and `x`, line feed, `http://ab` pass the
validation and go to the renderer.  The first contains a space (the `.` after
the first host character matches it); the second contains a line feed and does
not begin with `http://` or `https://` (under the `m` flag `^` also matches
after a line terminator). -/
theorem url_pattern_admits_whitespace :
    validUrl (some "http://a b".toList) = true ∧
    "http://a b".toList.any isJSSpace = true ∧
    beginRequest [] (plainRequest "http://a b") = .render ∧
    validUrl (some "x\nhttp://ab".toList) = true ∧
    "x\nhttp://ab".toList.any isJSSpace = true ∧
    "x\nhttp://ab".toList.take 7 ≠ "http://".toList ∧
    "x\nhttp://ab".toList.take 8 ≠ "https://".toList ∧
    beginRequest [] (plainRequest "x\nhttp://ab") = .render := by
  decide

/-! ## The empty token sequence -/

theorem sortedWordCounts_nil (mf n : Option Int) : sortedWordCounts [] mf n = [] := by
  have h : jsSort (objectEntries ([] : Table)) = [] := by decide
  simp [sortedWordCounts, h, slice0]

theorem wordCountsOf_eq (env : Env) (rn rs : Bool) (text : Str) :
    wordCountsOf env rn rs text = countWords (filterTokens env rn rs (tokenize env text)) := by
  unfold wordCountsOf tokenize
  cases wordsOf env text with
  | none => cases rn <;> cases rs <;> simp [filterTokens, removeStopwords, countWords]
  | some ws => rfl

/-- C14 (as stated) fails for a blank text: the text of a single space has no
run of word characters, so its token sequence is empty, and the request is
answered with status 404, not with an empty result. -/
theorem blank_text_is_refused :
    tokenize sampleEnv " ".toList = [] ∧
    wordRuns " ".toList = [] ∧
    handle sampleEnv [] (plainRequest "http://example.com") (.content " ".toList) =
      ([], { status := 404, body := .error "The provided URL has no readable content." }) := by
  decide

/-- C14 (as amended): when the rendered text is not blank and the token
sequence is empty after filtering (the text has no run of word characters, or
every token was filtered out), the request is answered with status 200 and the
empty list of word frequencies, which is also what is stored in the cache; and
the aggregation of the empty token sequence is empty for every `minFrequency`
and `n`. -/
theorem empty_tokens_empty_result (env : Env) (cache : Cache) (req : Request) (text : Str)
    (hne : (jsTrim text).isEmpty = false)
    (htok : filterTokens env req.removeNumbers req.removeStopwords (tokenize env text) = []) :
    finishRequest env cache req (.content text) =
      (setOwn cache (urlKey req) [], { status := 200, body := .wordFrequencies [] }) ∧
    aggregate [] req.minFrequency req.n = [] := by
  have h : sortedWordCounts (wordCountsOf env req.removeNumbers req.removeStopwords text)
      req.minFrequency req.n = [] := by
    rw [wordCountsOf_eq, htok]
    exact sortedWordCounts_nil _ _
  refine ⟨?_, sortedWordCounts_nil _ _⟩
  simp only [finishRequest, hne, Bool.false_eq_true, if_false, h]

theorem empty_tokens_empty_result_witness :
    (jsTrim "the ?!".toList).isEmpty = false ∧
    filterTokens sampleEnv (mkRequest "http://example.com" true false none none).removeNumbers
        (mkRequest "http://example.com" true false none none).removeStopwords
        (tokenize sampleEnv "the ?!".toList) = [] ∧
    (finishRequest sampleEnv [] (mkRequest "http://example.com" true false none none)
        (.content "the ?!".toList) =
      (setOwn [] (urlKey (mkRequest "http://example.com" true false none none)) [],
        { status := 200, body := .wordFrequencies [] }) ∧
     aggregate [] (mkRequest "http://example.com" true false none none).minFrequency
        (mkRequest "http://example.com" true false none none).n = []) :=
  ⟨by decide, by decide,
   empty_tokens_empty_result sampleEnv [] (mkRequest "http://example.com" true false none none)
     "the ?!".toList (by decide) (by decide)⟩

/-! ## Distinct words -/

theorem nodup_words_sortedWordCounts (t : Table) (hn : (t.map Prod.fst).Nodup)
    (mf n : Option Int) : ((sortedWordCounts t mf n).map RankedEntry.word).Nodup := by
  have h1 : (sortedWordCounts t mf n).map RankedEntry.word =
      (slice0 ((jsSort (objectEntries t)).filter (passesMin mf)) (sliceEnd n)).map Prod.fst := by
    simp [sortedWordCounts, List.map_map, Function.comp_def]
  rw [h1]
  have hperm : ((jsSort (objectEntries t)).map Prod.fst).Perm (t.map Prod.fst) :=
    ((perm_jsSort _).trans (perm_objectEntries t)).map _
  have hsub : ((slice0 ((jsSort (objectEntries t)).filter (passesMin mf)) (sliceEnd n)).map
      Prod.fst).Sublist ((jsSort (objectEntries t)).map Prod.fst) :=
    ((slice0_sublist _ _).trans (List.filter_sublist _)).map _
  exact (hperm.nodup_iff.mpr hn).sublist hsub

theorem nodup_keys_wordCountsOf (env : Env) (rn rs : Bool) (text : Str) :
    ((wordCountsOf env rn rs text).map Prod.fst).Nodup := by
  rw [wordCountsOf_eq]
  exact nodup_keys_countWords _

/-- C15: for every token sequence and every `minFrequency` and `n`, the words
of the ranked result are pairwise distinct; the same holds for the result
computed from any page text under any option setting. -/
theorem words_pairwise_distinct (ws : List Str) (mf n : Option Int) :
    ((aggregate ws mf n).map RankedEntry.word).Nodup ∧
    ∀ (env : Env) (req : Request) (text : Str),
      ((analyze env req text).map RankedEntry.word).Nodup :=
  ⟨nodup_words_sortedWordCounts _ (nodup_keys_countWords ws) mf n,
   fun env _ text =>
     nodup_words_sortedWordCounts _ (nodup_keys_wordCountsOf env _ _ text) _ _⟩

/-! ## Numerals that are not digit strings, and digit strings as keys -/

/-- C16: the word `1e5` is a token of the text `price 1e5`, it is not made only
of decimal digits, and with `removeNumbers` set the filter drops it: the
request is answered with `price` alone. -/
theorem numeral_filter_drops_scientific_form :
    ∃ w : Str,
      w ∈ tokenize sampleEnv "price 1e5".toList ∧ w.all isDecDigit = false ∧
      isNumericString w = true ∧ filterTokens sampleEnv true false [w] = [] ∧
      analyze sampleEnv (mkRequest "http://example.com" false true none none)
          "price 1e5".toList =
        [{ word := "price".toList, count := .num 1 }] :=
  ⟨"1e5".toList, by decide, by decide, by decide, by decide, by decide⟩

/-- C18: for the tokens `b`, `1` (with `removeNumbers` off) both words occur
once and `b` occurs first, yet `1` is ranked before `b`: the key `1` is an
array index, and `Object.entries` lists such keys first, in ascending numeric
order (`9` before `10`), before the other keys in order of creation. -/
theorem digit_word_ranked_first :
    aggregate ["b".toList, "1".toList] none none =
      [{ word := "1".toList, count := .num 1 }, { word := "b".toList, count := .num 1 }] ∧
    countWords ["b".toList, "1".toList] = [("b".toList, .num 1), ("1".toList, .num 1)] ∧
    objectEntries (countWords ["b".toList, "1".toList]) =
      [("1".toList, .num 1), ("b".toList, .num 1)] ∧
    objectEntries (countWords ["b".toList, "10".toList, "9".toList]) =
      [("9".toList, .num 1), ("10".toList, .num 1), ("b".toList, .num 1)] ∧
    analyze sampleEnv (plainRequest "http://example.com") "b 1".toList =
      [{ word := "1".toList, count := .num 1 }, { word := "b".toList, count := .num 1 }] := by
  decide

/-! ## Entries with equal counts -/

theorem sortCompare_eq_zero_of_count_eq (x y : Str × CountVal) (h : x.2 = y.2) :
    sortCompare x y = 0 := by
  obtain ⟨x1, x2⟩ := x
  obtain ⟨y1, y2⟩ := y
  simp only at h
  subst h
  cases x2 <;> simp [sortCompare, compareFn, toNumber]

theorem ties_orderedInsert (q : (Str × CountVal) → (Str × CountVal) → Prop)
    (a : Str × CountVal) :
    ∀ l : List (Str × CountVal), (∀ y ∈ l, q a y) →
      l.Pairwise (fun x y => x.2 = y.2 → q x y) →
      (l.orderedInsert (fun x y => sortCompare x y ≤ 0) a).Pairwise
        (fun x y => x.2 = y.2 → q x y) := by
  intro l
  induction l with
  | nil => intro _ _; simp
  | cons b l ih =>
    intro hq hp
    rw [List.pairwise_cons] at hp
    rw [List.orderedInsert]
    split
    · rw [List.pairwise_cons]
      exact ⟨fun y hy _ => hq y hy, List.pairwise_cons.mpr hp⟩
    · rename_i hab
      rw [List.pairwise_cons]
      refine ⟨?_, ih (fun y hy => hq y (List.mem_cons_of_mem _ hy)) hp.2⟩
      intro y hy
      rcases (List.mem_orderedInsert _).mp hy with h | h
      · intro hba
        rw [h] at hba
        exact absurd (by rw [sortCompare_eq_zero_of_count_eq a b hba.symm]) hab
      · exact hp.1 y h

theorem ties_insertionSort (q : (Str × CountVal) → (Str × CountVal) → Prop) :
    ∀ l : List (Str × CountVal), l.Pairwise q →
      (l.insertionSort (fun x y => sortCompare x y ≤ 0)).Pairwise
        (fun x y => x.2 = y.2 → q x y) := by
  intro l
  induction l with
  | nil => intro _; simp
  | cons a l ih =>
    intro hp
    rw [List.pairwise_cons] at hp
    rw [List.insertionSort]
    exact ties_orderedInsert q a _
      (fun y hy => hp.1 y ((List.mem_insertionSort _).mp hy)) (ih hp.2)

theorem objectEntries_of_no_index {β : Type} (t : Props β)
    (h : ∀ e ∈ t, arrayIndex e.1 = none) : objectEntries t = t := by
  unfold objectEntries
  have h1 : t.filter (fun e => (arrayIndex e.1).isSome) = [] := by
    rw [List.filter_eq_nil_iff]
    intro e he
    simp [h e he]
  have h2 : t.filter (fun e => (arrayIndex e.1).isNone) = t := by
    rw [List.filter_eq_self]
    intro e he
    simp [h e he]
  rw [h1, h2]
  rfl

theorem firstIndex_append_of_mem (ws l : List Str) (w : Str) (h : w ∈ ws) :
    firstIndex (ws ++ l) w = firstIndex ws w := by
  induction ws with
  | nil => simp at h
  | cons x xs ih =>
    by_cases hx : x = w
    · simp [firstIndex, hx]
    · have hw : w ∈ xs := by
        rcases List.mem_cons.mp h with h1 | h1
        · exact absurd h1.symm hx
        · exact h1
      simp [firstIndex, hx, ih hw]

theorem firstIndex_append_of_not_mem (ws l : List Str) (w : Str) (h : w ∉ ws) :
    firstIndex (ws ++ l) w = ws.length + firstIndex l w := by
  induction ws with
  | nil => simp
  | cons x xs ih =>
    have hx : ¬ x = w := fun h' => h (by simp [h'])
    have hw : w ∉ xs := fun h' => h (List.mem_cons_of_mem _ h')
    simp [firstIndex, hx, ih hw]
    omega

theorem firstIndex_lt_length (ws : List Str) (w : Str) (h : w ∈ ws) :
    firstIndex ws w < ws.length := by
  induction ws with
  | nil => simp at h
  | cons x xs ih =>
    by_cases hx : x = w
    · simp [firstIndex, hx]
    · have hw : w ∈ xs := by
        rcases List.mem_cons.mp h with h1 | h1
        · exact absurd h1.symm hx
        · exact h1
      simp [firstIndex, hx, ih hw]

theorem keys_in_order_of_first_appearance (ws : List Str)
    (hsafe : ∀ w ∈ ws, inheritedName w = false) :
    ((countWords ws).map Prod.fst).Pairwise (fun a b => firstIndex ws a < firstIndex ws b) := by
  induction ws using List.reverseRecOn with
  | nil => simp [countWords]
  | append_singleton ws x ih =>
    have hsafe' : ∀ w ∈ ws, inheritedName w = false :=
      fun w hw => hsafe w (List.mem_append_left _ hw)
    have hx : inheritedName x = false := hsafe x (by simp)
    have hproto : ¬ x = "__proto__".toList := by
      intro h; rw [h] at hx; revert hx; decide
    have hold : ((countWords ws).map Prod.fst).Pairwise
        (fun a b => firstIndex (ws ++ [x]) a < firstIndex (ws ++ [x]) b) := by
      refine (ih hsafe').imp_of_mem ?_
      intro a b ha hb hab
      rw [firstIndex_append_of_mem ws _ a ((mem_keys_countWords ws hsafe' a).mp ha),
        firstIndex_append_of_mem ws _ b ((mem_keys_countWords ws hsafe' b).mp hb)]
      exact hab
    rw [countWords_snoc, assignCount, if_neg hproto, keys_setOwn]
    split
    · exact hold
    · rename_i hnew
      have hxws : x ∉ ws := fun h => hnew ((mem_keys_countWords ws hsafe' x).mpr h)
      rw [List.pairwise_append]
      refine ⟨hold, List.pairwise_singleton _ _, ?_⟩
      intro a ha b hb
      have hb' : b = x := by simpa using hb
      subst hb'
      have haws := (mem_keys_countWords ws hsafe' a).mp ha
      rw [firstIndex_append_of_mem ws _ a haws, firstIndex_append_of_not_mem ws _ b hxws]
      have := firstIndex_lt_length ws a haws
      omega

/-- For a token sequence none of whose words names a member inherited from
`Object.prototype` or is an array index, two entries of the ranked result with
equal counts stand in the order in which their words first occur in the
sequence. -/
theorem ties_by_first_appearance (ws : List Str)
    (hsafe : ∀ w ∈ ws, inheritedName w = false) (hidx : ∀ w ∈ ws, arrayIndex w = none)
    (mf n : Option Int) :
    (aggregate ws mf n).Pairwise
      (fun x y => x.count = y.count → firstIndex ws x.word < firstIndex ws y.word) := by
  have hkeys := keys_in_order_of_first_appearance ws hsafe
  rw [List.pairwise_map] at hkeys
  have hent : objectEntries (countWords ws) = countWords ws :=
    objectEntries_of_no_index _ (fun e he =>
      hidx e.1 ((mem_keys_countWords ws hsafe e.1).mp (List.mem_map.mpr ⟨e, he, rfl⟩)))
  have hsorted := ties_insertionSort
    (fun a b => firstIndex ws a.1 < firstIndex ws b.1) (countWords ws) hkeys
  rw [← jsSort_of_numeric _ (numeric_countWords ws hsafe)] at hsorted
  have h1 := (hsorted.filter (passesMin mf)).sublist (slice0_sublist _ (sliceEnd n))
  unfold aggregate sortedWordCounts
  rw [hent, List.pairwise_map]
  exact h1

theorem arrayIndex_none_of_isNaN (w : Str) (h : jsIsNaN w = true) : arrayIndex w = none := by
  unfold arrayIndex
  split
  · rename_i hd
    have hd1 : nonEmptyAll isDecDigit w = true := by
      simp only [Bool.and_eq_true] at hd
      exact hd.1
    have hd2 := (nonEmptyAll_iff _ _).mp hd1
    have hword : ∀ c ∈ w, isWordChar c = true := by
      intro c hc
      have := hd2.2 c hc
      simp only [isDecDigit, Bool.and_eq_true, decide_eq_true_eq] at this
      simp only [isWordChar, Bool.or_eq_true, Bool.and_eq_true, decide_eq_true_eq, beq_iff_eq]
      omega
    have hnum := (isNumericString_word w hd2.1 hword).mpr (Or.inl hd1)
    simp [jsIsNaN, hnum] at h
  · rfl

/-- C17: for the tokens `a b c constructor e e e g (9 times) p p p`, none of
which is a numeral, the words `e` and `p` both occur three times and `e`
occurs first, yet `p` is ranked before `e`.  The count of `constructor` is a
string, the comparator is not consistent for these entries, and the binary
insertion of V8 moves `p` past `e` without comparing the two. -/
theorem inherited_name_breaks_tie_order :
    aggregate tieTokens none none =
      [{ word := "g".toList, count := .num 9 }, { word := "p".toList, count := .num 3 },
       { word := "a".toList, count := .num 1 }, { word := "b".toList, count := .num 1 },
       { word := "c".toList, count := .num 1 },
       { word := "constructor".toList,
         count := .text "function Object() \x7b [native code] \x7d1" },
       { word := "e".toList, count := .num 3 }] ∧
    tieTokens.count "e".toList = 3 ∧ tieTokens.count "p".toList = 3 ∧
    firstIndex tieTokens "e".toList < firstIndex tieTokens "p".toList ∧
    tieTokens.all (fun w => !w.any isDecDigit) = true ∧
    comparatorConsistent (objectEntries (countWords tieTokens)) = false := by
  decide

theorem filterTokens_eq_filter (env : Env) (rn rs : Bool) (ws : List Str) :
    filterTokens env rn rs ws =
      ws.filter (fun w => !(rn && isNumericString w) && !(rs && env.stopwords.contains w)) := by
  have hf : jsIsNaN = fun w => !isNumericString w := rfl
  cases rn <;> cases rs <;>
    simp [filterTokens, removeStopwords, hf, List.filter_filter, Bool.and_comm]

/-- With `removeNumbers` set no surviving token is an array index, so for a
filtered token sequence without inherited names the entries with equal counts
stand in the order of first appearance. -/
theorem ties_with_removeNumbers (env : Env) (rs : Bool) (ws : List Str)
    (hsafe : ∀ w ∈ ws, inheritedName w = false) (mf n : Option Int) :
    (aggregate (filterTokens env true rs ws) mf n).Pairwise
      (fun x y => x.count = y.count →
        firstIndex (filterTokens env true rs ws) x.word <
          firstIndex (filterTokens env true rs ws) y.word) := by
  have hsub : ∀ w ∈ filterTokens env true rs ws, w ∈ ws ∧ jsIsNaN w = true := by
    intro w hw
    rw [filterTokens_eq_filter env true rs ws] at hw
    have := List.mem_filter.mp hw
    refine ⟨this.1, ?_⟩
    have h2 := this.2
    simp only [Bool.true_and, Bool.and_eq_true, Bool.not_eq_true'] at h2
    simp [jsIsNaN, h2.1]
  exact ties_by_first_appearance _ (fun w hw => hsafe w (hsub w hw).1)
    (fun w hw => arrayIndex_none_of_isNaN w (hsub w hw).2) mf n

/-! ## The cache and the options -/

/-- C19: when a request for a valid url that is not in the cache has been
served from a page text that is not blank, its answer is what the pipeline
computes under its own options, and the next request for the same url, whatever
its options and whatever its render would end with, is answered with that same
result.  For the text `b a a`, a first request with `n = 1` and a second one
with every option absent, the second answer is `a: 2`, while the pipeline
computes `a: 2, b: 1` under the options of the second request. -/
theorem cache_ignores_options (env : Env) (cache : Cache) (req1 req2 : Request) (text : Str)
    (hvalid : validUrl req1.url = true) (hmiss : cache.lookup (urlKey req1) = none)
    (hne : (jsTrim text).isEmpty = false) (hurl : req2.url = req1.url) :
    (handle env cache req1 (.content text)).2 =
      { status := 200, body := .wordFrequencies (analyze env req1 text) } ∧
    (∀ out2 : RenderOutcome,
      handle env (handle env cache req1 (.content text)).1 req2 out2 =
        ((handle env cache req1 (.content text)).1,
          { status := 200, body := .wordFrequencies (analyze env req1 text) })) ∧
    analyze sampleEnv topOne "b a a".toList = [{ word := "a".toList, count := .num 2 }] ∧
    analyze sampleEnv (plainRequest "http://example.com") "b a a".toList =
      [{ word := "a".toList, count := .num 2 }, { word := "b".toList, count := .num 1 }] := by
  have hb : beginRequest cache req1 = .render := beginRequest_miss cache req1 hvalid hmiss
  have hh : handle env cache req1 (.content text) =
      (setOwn cache (urlKey req1) (analyze env req1 text),
        { status := 200, body := .wordFrequencies (analyze env req1 text) }) := by
    rw [handle, hb]
    simp only [finishRequest, hne, Bool.false_eq_true, if_false, analyze]
  refine ⟨by rw [hh], ?_, by decide, by decide⟩
  intro out2
  rw [hh]
  have hk : urlKey req2 = urlKey req1 := by simp [urlKey, hurl]
  have hhit := beginRequest_hit (setOwn cache (urlKey req1) (analyze env req1 text)) req2
    (analyze env req1 text) (by rw [hurl]; exact hvalid)
    (by rw [hk]; exact lookup_setOwn_self _ _ _)
  rw [handle, hhit]

theorem cache_ignores_options_witness :
    validUrl topOne.url = true ∧
    List.lookup (urlKey topOne) ([] : Cache) = none ∧
    (jsTrim "b a a".toList).isEmpty = false ∧
    (plainRequest "http://example.com").url = topOne.url ∧
    ((handle sampleEnv [] topOne (.content "b a a".toList)).2 =
        { status := 200, body := .wordFrequencies (analyze sampleEnv topOne "b a a".toList) } ∧
     (∀ out2 : RenderOutcome,
        handle sampleEnv (handle sampleEnv [] topOne (.content "b a a".toList)).1
            (plainRequest "http://example.com") out2 =
          ((handle sampleEnv [] topOne (.content "b a a".toList)).1,
            { status := 200,
              body := .wordFrequencies (analyze sampleEnv topOne "b a a".toList) })) ∧
     analyze sampleEnv topOne "b a a".toList = [{ word := "a".toList, count := .num 2 }] ∧
     analyze sampleEnv (plainRequest "http://example.com") "b a a".toList =
       [{ word := "a".toList, count := .num 2 }, { word := "b".toList, count := .num 1 }]) :=
  ⟨by decide, by decide, by decide, rfl,
   cache_ignores_options sampleEnv [] topOne (plainRequest "http://example.com")
     "b a a".toList (by decide) (by decide) (by decide) rfl⟩

end Frequent
